import Mathlib

/-
Verification development for the tyme time-tracking core
(`src/tyme/timeline.py` and the guard in `src/tyme/cli.py`).

The embedding below is a shallow translation of the `Timeline` class:

* hjson timeline entries (Python dicts with keys "id", "name", "start",
  optionally "end" and "previous") become the `Entry` structure, with the
  optional keys as `Option`/`Bool` fields;
* the day-keyed timeline dict becomes an insertion-ordered association list
  (`Log`), since the Python code only ever reads it through key lookup,
  `sorted(keys)` and in-place assignment;
* the activity hierarchy (nested dicts name -> (uuid, children)) becomes the
  nested inductive `Catalog`;
* exceptions become `Except` results; operations that can mutate before
  raising (`Timeline.done`) return the post-raise state alongside the error,
  mirroring the fact that a Python exception leaves prior in-place mutations
  visible to the caller;
* the clock (`utils.utc_now`, external to the sources) is threaded as an
  explicit `now : Timestamp` argument, and uuid generation becomes an
  explicit supply of identifier strings.
-/

/-- Calendar date. Source timeline keys are ISO "YYYY-MM-DD" strings; for
zero-padded dates the string comparisons used by the Python code
(`sorted`, `>`) coincide with lexicographic comparison of (y, m, d). -/
structure Date where
  y : Nat
  m : Nat
  d : Nat
deriving DecidableEq

/-- Lexicographic order on dates, matching ISO date-string comparison. -/
def Date.le (a b : Date) : Prop :=
  a.y < b.y ∨ (a.y = b.y ∧ (a.m < b.m ∨ (a.m = b.m ∧ a.d ≤ b.d)))

/-- Strict lexicographic order on dates. -/
def Date.lt (a b : Date) : Prop :=
  a.y < b.y ∨ (a.y = b.y ∧ (a.m < b.m ∨ (a.m = b.m ∧ a.d < b.d)))

instance (a b : Date) : Decidable (Date.le a b) := by
  unfold Date.le
  infer_instance

instance (a b : Date) : Decidable (Date.lt a b) := by
  unfold Date.lt
  infer_instance

/-- Modelled from the spec: the Clock/Time utility (`tyme.utils`, not under
`src/`) uses the Gregorian calendar; leap-year rule for February. -/
def isLeap (y : Nat) : Bool :=
  (y % 4 == 0 && y % 100 != 0) || y % 400 == 0

/-- Modelled from the spec: Gregorian month lengths, as used by the external
date arithmetic of `tyme.utils`. -/
def daysInMonth (y m : Nat) : Nat :=
  if m = 2 then (if isLeap y then 29 else 28)
  else if m = 4 ∨ m = 6 ∨ m = 9 ∨ m = 11 then 30
  else 31

/-- Well-formed calendar date. -/
def Date.Valid (x : Date) : Prop :=
  1 ≤ x.m ∧ x.m ≤ 12 ∧ 1 ≤ x.d ∧ x.d ≤ daysInMonth x.y x.m

instance (x : Date) : Decidable x.Valid := by
  unfold Date.Valid
  infer_instance

/-- Modelled from the spec: successor day in the Gregorian calendar, as
computed by the external `tyme.utils` date arithmetic. -/
def Date.nextDay (x : Date) : Date :=
  if x.d < daysInMonth x.y x.m then ⟨x.y, x.m, x.d + 1⟩
  else if x.m < 12 then ⟨x.y, x.m + 1, 1⟩
  else ⟨x.y + 1, 1, 1⟩

/-- Modelled from the spec: `utils.offset_day(ts, days_offset=k)` (not under
`src/`) returns the calendar day `k` true calendar days after `ts`. -/
def Date.addDays (x : Date) : Nat → Date
  | 0 => x
  | k + 1 => (Date.addDays x k).nextDay

/-- Timestamp: a calendar date plus a time of day (minutes past midnight).
The Python code stores timestamps as strings and re-parses them; parsing and
formatting (external `tyme.utils`) are modelled as the identity, so entries
hold `Timestamp` values directly. `date_str` comparisons become `Date`
comparisons and `.datetime.day` becomes `.date.d`. -/
structure Timestamp where
  date : Date
  tod : Nat
deriving DecidableEq

/-- One timeline entry: the Python dict
`{"id": ..., "name": ..., "start": ..., ["end": ...], ["previous": ""]}`.
`end?` is `none` when the "end" key is absent (open interval); `previous`
records presence of the "previous" continuation-marker key. -/
structure Entry where
  id : String
  name : String
  start : Timestamp
  end? : Option Timestamp
  previous : Bool
deriving DecidableEq

/-- Association-list lookup: Python `dict[k]` / `k in dict`. -/
def alfind {κ α : Type} [DecidableEq κ] : List (κ × α) → κ → Option α
  | [], _ => none
  | (k, v) :: rest, key => if k = key then some v else alfind rest key

/-- Association-list assignment: Python `dict[k] = v` replaces the value in
place when the key is present and appends a new binding otherwise
(insertion-ordered dict semantics). -/
def alset {κ α : Type} [DecidableEq κ] : List (κ × α) → κ → α → List (κ × α)
  | [], key, v => [(key, v)]
  | (k, w) :: rest, key, v =>
    if k = key then (key, v) :: rest else (k, w) :: alset rest key v

/-- The per-day activity log: the "timeline" field, a mapping from day to the
ordered list of entries for that day. -/
abbrev Bucket := List Entry

/-- Insertion-ordered day-to-bucket mapping (`self.timeline`). -/
abbrev Log := List (Date × Bucket)

/-- Keys of the log, in insertion order (`self.timeline.keys()`). -/
def lkeys (l : Log) : List Date := l.map (fun p => p.1)

/-- Maximum of a list of dates, given a starting candidate. -/
def maxOf (c : Date) : List Date → Date
  | [] => c
  | k :: rest => maxOf (if Date.le c k then k else c) rest

/-- Chronologically last day key: `sorted(self.timeline.keys())[-1]`, which
for a nonempty dict with unique keys is the maximum key; `none` when the
timeline is empty (where the Python indexing would raise `IndexError`). -/
def maxKey (l : Log) : Option Date :=
  match lkeys l with
  | [] => none
  | k :: rest => some (maxOf k rest)

/-- Python exceptions raised by the timeline core: `IndexError` from `[-1]`
on an empty list, `TimelineError`, and `ValueError` (the latter two with
their message). -/
inductive Err where
  | indexError : Err
  | timelineError : String → Err
  | valueError : String → Err
deriving DecidableEq

/-- Message of the clock-skew failure in `Timeline.done`. -/
def skewMsg : String :=
  "Finishing activity before it was started. Maybe system clock is wrong?"

/-- Translation of `Timeline.current_activity` (timeline.py:172-188): `none`
for the empty timeline, otherwise the last entry of the chronologically last
day if it has no "end" key. An empty last bucket makes the `[-1]` indexing
raise `IndexError`. -/
def current_activity (tl : Log) : Except Err (Option Entry) :=
  match maxKey tl with
  | none => .ok none
  | some day =>
    match ((alfind tl day).getD []).getLast? with
    | none => .error .indexError
    | some last => if last.end?.isSome then .ok none else .ok (some last)

/-- Continuation fragment written for one in-between day by `Timeline.done`
(timeline.py:160-168): same id/name, the original start, the final end, and
the "previous" marker key. -/
def mkFragment (e : Entry) (endTs : Timestamp) : Entry :=
  { id := e.id, name := e.name, start := e.start, end? := some endTs,
    previous := true }

/-- The fill loop of `Timeline.done` (timeline.py:158-168): for each offset
in `range(1, num_days + 1)` the bucket of the offset day is assigned the
singleton list holding the continuation fragment. -/
def fillDays (tl : Log) (e : Entry) (endTs : Timestamp) (n : Nat) : Log :=
  (List.range' 1 n).foldl
    (fun acc k => alset acc (Date.addDays e.start.date k) [mkFragment e endTs])
    tl

/-- Translation of `Timeline.done` (timeline.py:132-170), with the clock
read `utils.utc_now()` passed as `now`. Returns the `(start, end, name)`
triple and the post-call log; an error also carries the post-raise log,
because the method assigns `last_activity["end"]` before the clock-skew
check, so a `TimelineError` escapes after that in-place mutation. -/
def done (tl : Log) (now : Timestamp) :
    Except (Err × Log) ((Timestamp × Timestamp × String) × Log) :=
  match maxKey tl with
  | none => .error (.indexError, tl)
  | some day =>
    let bucket := (alfind tl day).getD []
    match bucket.getLast? with
    | none => .error (.indexError, tl)
    | some la =>
      let startTs := la.start
      let closed : Entry := { la with end? := some now }
      let tl1 := alset tl day (bucket.dropLast ++ [closed])
      if Date.lt now.date startTs.date then
        .error (.timelineError skewMsg, tl1)
      else
        let numDays : Int := (now.date.d : Int) - (startTs.date.d : Int)
        let tl2 :=
          if startTs.date ≠ now.date then fillDays tl1 closed now numDays.toNat
          else tl1
        .ok ((startTs, now, la.name), tl2)

/-- The activity hierarchy (the "activities" field): nested mapping from
name to a (uuid, children) pair, insertion-ordered. -/
inductive Catalog where
  | mk : List (String × String × Catalog) → Catalog

/-- Children list of a catalog node. -/
def Catalog.children : Catalog → List (String × String × Catalog)
  | .mk cs => cs

mutual

/-- Translation of the inner `search` of `Timeline.activity_id`
(timeline.py:279-294): pre-order, insertion-order depth-first search for the
first node with the given name, returning its uuid. -/
def searchId (activity : String) : Catalog → Option String
  | .mk cs => searchIdIn activity cs

/-- Sibling-list part of `searchId`: try each binding in order, descending
fully into a child before moving to the next sibling. -/
def searchIdIn (activity : String) : List (String × String × Catalog) → Option String
  | [] => none
  | (nm, aid, child) :: rest =>
    if nm = activity then some aid
    else
      match searchId activity child with
      | some r => some r
      | none => searchIdIn activity rest

end

/-- Translation of `Timeline.activity_id` (timeline.py:267-294). -/
def activity_id (cat : Catalog) (activity : String) : Option String :=
  searchId activity cat

/-- Character-level model of the Python builtin `str.split(sep)` for a
one-character separator (the builtin is external library code): splitting on
every occurrence of `sep`, keeping empty pieces, with `"" -> [""]`. -/
def splitChars (sep : Char) : List Char → List (List Char)
  | [] => [[]]
  | c :: rest =>
    let r := splitChars sep rest
    if c = sep then [] :: r
    else (c :: r.headD []) :: r.tail

/-- Python `s.split(sep)` for a one-character separator. -/
def pySplit (s : String) (sep : Char) : List String :=
  (splitChars sep s.data).map (fun cs => String.mk cs)

/-- The walk of `Timeline.new_activity` (timeline.py:223-236) over the
already-split path: for each intermediate segment, follow the existing child
or (with `parents`) create a fresh node, consuming one identifier from the
supply; finally assign the leaf binding `(fresh uuid, {})`, a plain dict
assignment. Errors carry the catalog state visible after the raise; the walk
performs no mutation before either raise, which the no-partial-mutation
theorems below make explicit. -/
def insertGo (parents : Bool) (ids : List String) :
    List String → String → List (String × String × Catalog) →
    Except (Err × List (String × String × Catalog)) (List (String × String × Catalog))
  | [], leaf, cs => .ok (alset cs leaf (ids.headD "", Catalog.mk []))
  | seg :: rest, leaf, cs =>
    match alfind cs seg with
    | some (aid, child) =>
      match insertGo parents ids rest leaf child.children with
      | .ok cs2 => .ok (alset cs seg (aid, Catalog.mk cs2))
      | .error (e, cs2) => .error (e, alset cs seg (aid, Catalog.mk cs2))
    | none =>
      if parents then
        match insertGo parents ids.tail rest leaf [] with
        | .ok cs2 => .ok (alset cs seg (ids.headD "", Catalog.mk cs2))
        | .error (e, cs2) => .error (e, alset cs seg (ids.headD "", Catalog.mk cs2))
      else
        .error (.valueError ("the activity " ++ seg ++ " does not exist"), cs)

/-- Translation of `Timeline.new_activity` (timeline.py:205-236) for the
absolute-path form, with the uuid supply explicit. `activity.split("/")[1:]`
becomes `(pySplit activity).drop 1`; an empty segment raises
`ValueError("malformed absolute activity path")` before any mutation, and an
empty segment list makes the unpacking `*path, new_activity = ...` raise
`ValueError` as well. -/
def new_activity (cat : Catalog) (activity : String) (parents : Bool)
    (ids : List String) : Except (Err × Catalog) Catalog :=
  let segs := (pySplit activity '/').drop 1
  if segs.contains "" then
    .error (.valueError "malformed absolute activity path", cat)
  else
    match segs.getLast? with
    | none => .error (.valueError "not enough values to unpack", cat)
    | some leaf =>
      match insertGo parents ids segs.dropLast leaf cat.children with
      | .ok cs => .ok (.mk cs)
      | .error (e, cs) => .error (e, .mk cs)

/-- Navigation helper for stating catalog theorems: follow a path of segment
names from a sibling list down to the children list of the destination
node. -/
def follow (cs : List (String × String × Catalog)) :
    List String → Option (List (String × String × Catalog))
  | [] => some cs
  | seg :: rest =>
    match alfind cs seg with
    | some (_, child) => follow child.children rest
    | none => none

/-- In-memory `Timeline` object state: the day log and the catalog. -/
structure TL where
  timeline : Log
  activities : Catalog

/-- Translation of `Timeline.start` (timeline.py:97-130). The two
`utils.utc_now()` reads (one inside the implicit `done`, one for the new
entry) are modelled from the spec as the single per-operation instant `now`:
the spec describes `start(activity_id, activity_name, now)` as closing the
open interval via `finish(now)` with the same `now`, the clock being an
external collaborator. Unknown activities raise `TimelineError` before any
mutation; an error escaping the inner `done` carries that call's post-raise
state. -/
def start (t : TL) (activity : String) (now : Timestamp) :
    Except (Err × TL) (Option (Timestamp × Timestamp × String) × TL) :=
  match activity_id t.activities activity with
  | none =>
    .error (.timelineError ("The activity " ++ activity ++ " does not exist."), t)
  | some aid =>
    match current_activity t.timeline with
    | .error e => .error (e, t)
    | .ok cur =>
      let step : Except (Err × Log) (Option (Timestamp × Timestamp × String) × Log) :=
        match cur with
        | none => .ok (none, t.timeline)
        | some _ =>
          match done t.timeline now with
          | .error (e, tl2) => .error (e, tl2)
          | .ok (res, tl2) => .ok (some res, tl2)
      match step with
      | .error (e, tl2) => .error (e, { t with timeline := tl2 })
      | .ok (completed, tl2) =>
        let bucket := (alfind tl2 now.date).getD []
        let entry : Entry :=
          { id := aid, name := activity, start := now, end? := none,
            previous := false }
        .ok (completed, { t with timeline := alset tl2 now.date (bucket ++ [entry]) })

/-- The `--done` branch of the CLI (cli.py:55-56): `Timeline.done` is called
only when `current_activity()` is not `None`; otherwise the command falls
through to the status display without touching the timeline. -/
def cli_done (t : TL) (now : Timestamp) : TL :=
  match current_activity t.timeline with
  | .ok (some _) =>
    match done t.timeline now with
    | .ok (_, tl2) => { t with timeline := tl2 }
    | .error (_, tl2) => { t with timeline := tl2 }
  | _ => t

/-- One day of the scan in `Timeline.recent_activities` (timeline.py:84-93):
entries carrying the "previous" marker are skipped; each other entry is
collected and decrements the counter; when the counter reaches exactly zero
the method returns immediately. Yields the collected entries, the remaining
counter, and whether the early `return` fired. -/
def recentDay : Bucket → Int → (Bucket × Int × Bool)
  | [], n => ([], n, false)
  | e :: rest, n =>
    if e.previous then recentDay rest n
    else
      if n - 1 = 0 then ([e], n - 1, true)
      else
        let r := recentDay rest (n - 1)
        (e :: r.1, r.2.1, r.2.2)

/-- Insert a day bucket into a list sorted by descending day key. -/
def insDesc (p : Date × Bucket) : Log → Log
  | [] => [p]
  | q :: rest => if Date.le q.1 p.1 then p :: q :: rest else q :: insDesc p rest

/-- Day buckets sorted by descending key:
`sorted(self.timeline.keys(), reverse=True)` paired with their buckets. -/
def sortDesc : Log → Log
  | [] => []
  | p :: rest => insDesc p (sortDesc rest)

/-- Day loop of `Timeline.recent_activities`: scan buckets newest day first;
a day appears in the result (in scan order, matching the insertion order of
the `defaultdict`) exactly when at least one of its entries is collected. -/
def recentGo : Log → Int → Log
  | [], _ => []
  | (day, es) :: rest, n =>
    let r := recentDay es n
    let here : Log := if r.1.isEmpty then [] else [(day, r.1)]
    if r.2.2 then here else here ++ recentGo rest r.2.1

/-- Translation of `Timeline.recent_activities` (timeline.py:65-95); the
Python `num` is an unbounded `int`, hence `Int` here. -/
def recent_activities (tl : Log) (num : Int) : Log :=
  recentGo (sortDesc tl) num

/-- One engine operation of the start/finish state machine, carrying the
instant at which the clock is read. -/
inductive Op where
  | startOp (activity : String) (now : Timestamp)
  | finishOp (now : Timestamp)

/-- The clock reading of an operation. -/
def Op.now : Op → Timestamp
  | .startOp _ n => n
  | .finishOp n => n

/-- Python semantics of issuing one call: the object state after the call,
whether it returned normally or raised. -/
def applyOp (t : TL) : Op → TL
  | .startOp a now =>
    match start t a now with
    | .ok (_, t2) => t2
    | .error (_, t2) => t2
  | .finishOp now =>
    match done t.timeline now with
    | .ok (_, tl2) => { t with timeline := tl2 }
    | .error (_, tl2) => { t with timeline := tl2 }

/-- Issue a sequence of calls left to right. -/
def run (t : TL) : List Op → TL
  | [] => t
  | op :: rest => run (applyOp t op) rest

/-- Monotone well-formed clock: every operation reads a valid date no
earlier than the bound (and than every earlier read). -/
def ClockOK : Date → List Op → Prop
  | _, [] => True
  | b, op :: rest => op.now.date.Valid ∧ Date.le b op.now.date ∧ ClockOK op.now.date rest

instance decClockOK : (b : Date) → (ops : List Op) → Decidable (ClockOK b ops)
  | _, [] => isTrue trivial
  | _, op :: rest =>
    @instDecidableAnd _ _ inferInstance
      (@instDecidableAnd _ _ inferInstance (decClockOK op.now.date rest))

/-- Number of open intervals (entries without "end") in the whole log. -/
def openCount (tl : Log) : Nat :=
  (tl.map (fun p => p.2.countP (fun e => e.end?.isNone))).sum

/-- Every open entry is the last entry of the chronologically last day. -/
def openIsLast (tl : Log) : Prop :=
  ∀ p ∈ tl, ∀ e ∈ p.2, e.end? = none →
    maxKey tl = some p.1 ∧ p.2.getLast? = some e

/-! Order lemmas for `Date`. -/

theorem dle_refl (a : Date) : Date.le a a := by
  unfold Date.le
  omega

theorem dle_trans {a b c : Date} (h1 : Date.le a b) (h2 : Date.le b c) :
    Date.le a c := by
  unfold Date.le at *
  omega

theorem dle_total (a b : Date) : Date.le a b ∨ Date.le b a := by
  unfold Date.le
  omega

theorem dle_antisymm {a b : Date} (h1 : Date.le a b) (h2 : Date.le b a) :
    a = b := by
  unfold Date.le at h1 h2
  cases a
  cases b
  simp only [Date.mk.injEq]
  simp only at h1 h2
  omega

theorem dlt_of_dle_of_ne {a b : Date} (h1 : Date.le a b) (h2 : a ≠ b) :
    Date.lt a b := by
  have hne : ¬ (a.y = b.y ∧ a.m = b.m ∧ a.d = b.d) := by
    intro hc
    apply h2
    cases a
    cases b
    simp only [Date.mk.injEq]
    simp only at hc
    exact hc
  unfold Date.le at h1
  unfold Date.lt
  omega

theorem dle_of_dlt {a b : Date} (h : Date.lt a b) : Date.le a b := by
  unfold Date.lt at h
  unfold Date.le
  omega

theorem dlt_trans {a b c : Date} (h1 : Date.lt a b) (h2 : Date.lt b c) :
    Date.lt a c := by
  unfold Date.lt at *
  omega

theorem dlt_irrefl (a : Date) : ¬ Date.lt a a := by
  unfold Date.lt
  omega

theorem ne_of_dlt {a b : Date} (h : Date.lt a b) : a ≠ b := by
  intro he
  subst he
  exact dlt_irrefl a h

theorem dlt_of_not_lt_of_ne {a b : Date} (h1 : ¬ Date.lt a b) (h2 : b ≠ a) :
    Date.lt b a := by
  rcases dle_total a b with hle | hle
  · exact absurd (dlt_of_dle_of_ne hle (fun he => h2 he.symm)) h1
  · exact dlt_of_dle_of_ne hle h2

theorem not_dlt_of_dle {a b : Date} (h : Date.le a b) : ¬ Date.lt b a := by
  unfold Date.le at h
  unfold Date.lt
  omega

/-! Association-list lemmas. -/

theorem alfind_alset_self {κ α : Type} [DecidableEq κ] (l : List (κ × α))
    (k : κ) (v : α) : alfind (alset l k v) k = some v := by
  induction l with
  | nil => simp [alset, alfind]
  | cons p rest ih =>
    by_cases h : p.1 = k
    · simp [alset, alfind, h]
    · simpa [alset, alfind, h] using ih

theorem alfind_alset_ne {κ α : Type} [DecidableEq κ] (l : List (κ × α))
    (k k2 : κ) (v : α) (hne : k2 ≠ k) :
    alfind (alset l k v) k2 = alfind l k2 := by
  have hne2 : k ≠ k2 := Ne.symm hne
  induction l with
  | nil => simp [alset, alfind, hne2]
  | cons p rest ih =>
    by_cases h : p.1 = k
    · simp [alset, alfind, h, hne2]
    · by_cases h2 : p.1 = k2
      · simp [alset, alfind, h, h2, hne]
      · simpa [alset, alfind, h, h2] using ih

theorem mem_alset {κ α : Type} [DecidableEq κ] {l : List (κ × α)}
    {k : κ} {v : α} {p : κ × α} (hp : p ∈ alset l k v) :
    p = (k, v) ∨ p ∈ l := by
  induction l with
  | nil =>
    simp only [alset, List.mem_singleton] at hp
    exact Or.inl hp
  | cons q rest ih =>
    by_cases h : q.1 = k
    · simp only [alset, h, if_pos rfl] at hp
      rcases List.mem_cons.mp hp with h1 | h1
      · exact Or.inl h1
      · exact Or.inr (List.mem_cons_of_mem _ h1)
    · simp only [alset, h, if_neg h] at hp
      rcases List.mem_cons.mp hp with h1 | h1
      · exact Or.inr (h1 ▸ List.mem_cons_self _ _)
      · rcases ih h1 with h2 | h2
        · exact Or.inl h2
        · exact Or.inr (List.mem_cons_of_mem _ h2)

theorem alfind_mem {κ α : Type} [DecidableEq κ] {l : List (κ × α)} {k : κ}
    {v : α} (h : alfind l k = some v) : (k, v) ∈ l := by
  induction l with
  | nil => simp [alfind] at h
  | cons p rest ih =>
    by_cases hk : p.1 = k
    · have h2 : p.2 = v := by simpa [alfind, hk] using h
      have h3 : p = (k, v) := by
        cases p
        simp only at hk h2
        simp [hk, h2]
      exact h3 ▸ List.mem_cons_self p rest
    · simp only [alfind, hk, if_neg hk] at h
      exact List.mem_cons_of_mem _ (ih h)

theorem alfind_none_iff {κ α : Type} [DecidableEq κ] (l : List (κ × α))
    (k : κ) : alfind l k = none ↔ k ∉ l.map (fun p => p.1) := by
  induction l with
  | nil => simp [alfind]
  | cons p rest ih =>
    by_cases hk : p.1 = k
    · simp [alfind, hk]
    · have hk2 : ¬ k = p.1 := fun h => hk h.symm
      simp [alfind, hk, hk2, ih]

theorem alfind_isSome_of_mem_keys {κ α : Type} [DecidableEq κ]
    {l : List (κ × α)} {k : κ} (h : k ∈ l.map (fun p => p.1)) :
    ∃ v, alfind l k = some v := by
  rcases ho : alfind l k with _ | v
  · exact absurd h ((alfind_none_iff l k).mp ho)
  · exact ⟨v, rfl⟩

theorem keys_alset_mem {κ α : Type} [DecidableEq κ] (l : List (κ × α))
    (k : κ) (v : α) (h : k ∈ l.map (fun p => p.1)) :
    (alset l k v).map (fun p => p.1) = l.map (fun p => p.1) := by
  induction l with
  | nil => simp at h
  | cons p rest ih =>
    by_cases hk : p.1 = k
    · simp [alset, hk]
    · simp only [List.map_cons, List.mem_cons] at h
      rcases h with h | h
      · exact absurd h.symm hk
      · simp [alset, hk, ih h]

theorem keys_alset_not_mem {κ α : Type} [DecidableEq κ] (l : List (κ × α))
    (k : κ) (v : α) (h : k ∉ l.map (fun p => p.1)) :
    (alset l k v).map (fun p => p.1) = l.map (fun p => p.1) ++ [k] := by
  induction l with
  | nil => simp [alset]
  | cons p rest ih =>
    simp only [List.map_cons, List.mem_cons] at h
    push_neg at h
    by_cases hk : p.1 = k
    · exact absurd hk.symm h.1
    · simp [alset, hk, ih h.2]

theorem alfind_of_mem_nodup {κ α : Type} [DecidableEq κ] {l : List (κ × α)}
    {k : κ} {v : α} (hnd : (l.map (fun p => p.1)).Nodup) (hm : (k, v) ∈ l) :
    alfind l k = some v := by
  induction l with
  | nil => simp at hm
  | cons p rest ih =>
    simp only [List.map_cons, List.nodup_cons] at hnd
    rcases List.mem_cons.mp hm with h | h
    · simp [alfind, ← h]
    · have hk : p.1 ≠ k := by
        intro he
        exact hnd.1 (he ▸ (List.mem_map.mpr ⟨(k, v), h, rfl⟩))
      simp [alfind, hk, ih hnd.2 h]

theorem alset_eq_self {κ α : Type} [DecidableEq κ] {l : List (κ × α)}
    {k : κ} {v : α} (h : alfind l k = some v) : alset l k v = l := by
  induction l with
  | nil => simp [alfind] at h
  | cons p rest ih =>
    by_cases hk : p.1 = k
    · have h2 : p.2 = v := by simpa [alfind, hk] using h
      cases p
      simp only at hk h2
      simp [alset, hk, h2]
    · simp only [alfind, hk, if_neg hk] at h
      simp [alset, hk, ih h]

/-! Lemmas about `maxOf` and `maxKey`. -/

theorem maxOf_mem (c : Date) (ks : List Date) : maxOf c ks ∈ c :: ks := by
  induction ks generalizing c with
  | nil => simp [maxOf]
  | cons k rest ih =>
    unfold maxOf
    by_cases h : Date.le c k
    · simp only [if_pos h]
      rcases List.mem_cons.mp (ih k) with h2 | h2
      · simp [h2]
      · simp [h2]
    · simp only [if_neg h]
      rcases List.mem_cons.mp (ih c) with h2 | h2
      · simp [h2]
      · simp [h2]

theorem maxOf_ge (c : Date) (ks : List Date) :
    Date.le c (maxOf c ks) ∧ ∀ k ∈ ks, Date.le k (maxOf c ks) := by
  induction ks generalizing c with
  | nil => exact ⟨dle_refl c, by simp⟩
  | cons k rest ih =>
    unfold maxOf
    by_cases h : Date.le c k
    · simp only [if_pos h]
      refine ⟨dle_trans h (ih k).1, ?_⟩
      intro k2 hk2
      rcases List.mem_cons.mp hk2 with h2 | h2
      · exact h2 ▸ (ih k).1
      · exact (ih k).2 k2 h2
    · simp only [if_neg h]
      rcases dle_total c k with h2 | h2
      · exact absurd h2 h
      · refine ⟨(ih c).1, ?_⟩
        intro k2 hk2
        rcases List.mem_cons.mp hk2 with h3 | h3
        · exact h3 ▸ dle_trans h2 (ih c).1
        · exact (ih c).2 k2 h3

theorem maxKey_mem {l : Log} {d : Date} (h : maxKey l = some d) :
    d ∈ lkeys l := by
  unfold maxKey at h
  rcases hk : lkeys l with _ | ⟨k, rest⟩
  · simp [hk] at h
  · simp only [hk, Option.some.injEq] at h
    exact h ▸ maxOf_mem k rest

theorem maxKey_ge {l : Log} {d : Date} (h : maxKey l = some d) :
    ∀ k ∈ lkeys l, Date.le k d := by
  unfold maxKey at h
  rcases hk : lkeys l with _ | ⟨k, rest⟩
  · simp [hk] at h
  · simp only [hk, Option.some.injEq] at h
    intro k2 hk2
    rcases List.mem_cons.mp hk2 with h2 | h2
    · exact h ▸ h2 ▸ (maxOf_ge k rest).1
    · exact h ▸ (maxOf_ge k rest).2 k2 h2

theorem maxKey_none_iff (l : Log) : maxKey l = none ↔ l = [] := by
  cases l with
  | nil => simp [maxKey, lkeys]
  | cons p rest => simp [maxKey, lkeys]

theorem maxKey_eq_of {l : Log} {d : Date} (hm : d ∈ lkeys l)
    (hb : ∀ k ∈ lkeys l, Date.le k d) : maxKey l = some d := by
  rcases ho : maxKey l with _ | d2
  · rw [(maxKey_none_iff l).mp ho] at hm
    simp [lkeys] at hm
  · have h1 : Date.le d2 d := hb d2 (maxKey_mem ho)
    have h2 : Date.le d d2 := maxKey_ge ho d hm
    rw [dle_antisymm h2 h1]

/-! Calendar arithmetic lemmas. -/

theorem dim_ge_28 (y m : Nat) : 28 ≤ daysInMonth y m := by
  unfold daysInMonth
  split
  · split <;> omega
  · split <;> omega

theorem dim_le_31 (y m : Nat) : daysInMonth y m ≤ 31 := by
  unfold daysInMonth
  split
  · split <;> omega
  · split <;> omega

theorem dlt_nextDay (x : Date) : Date.lt x x.nextDay := by
  unfold Date.nextDay
  by_cases h1 : x.d < daysInMonth x.y x.m
  · rw [if_pos h1]
    unfold Date.lt
    dsimp only
    omega
  · rw [if_neg h1]
    by_cases h2 : x.m < 12
    · rw [if_pos h2]
      unfold Date.lt
      dsimp only
      omega
    · rw [if_neg h2]
      unfold Date.lt
      dsimp only
      omega

theorem addDays_add (x : Date) (a b : Nat) :
    x.addDays (a + b) = (x.addDays a).addDays b := by
  induction b with
  | zero => rfl
  | succ n ih =>
    show (x.addDays (a + n)).nextDay = ((x.addDays a).addDays n).nextDay
    rw [ih]

theorem dlt_addDays (x : Date) (k : Nat) : Date.lt x (x.addDays (k + 1)) := by
  induction k with
  | zero => exact dlt_nextDay x
  | succ n ih => exact dlt_trans ih (dlt_nextDay (x.addDays (n + 1)))

theorem addDays_inMonth {x : Date} {k : Nat} (hv : x.Valid)
    (h : x.d + k ≤ daysInMonth x.y x.m) :
    x.addDays k = ⟨x.y, x.m, x.d + k⟩ ∧ (Date.mk x.y x.m (x.d + k)).Valid := by
  induction k with
  | zero =>
    constructor
    · cases x
      rfl
    · unfold Date.Valid at *
      simp only at *
      omega
  | succ n ih =>
    have h2 : x.d + n ≤ daysInMonth x.y x.m := by omega
    obtain ⟨he, hv2⟩ := ih h2
    constructor
    · show (x.addDays n).nextDay = _
      rw [he]
      unfold Date.nextDay
      dsimp only
      rw [if_pos (show x.d + n < daysInMonth x.y x.m by omega)]
      rfl
    · unfold Date.Valid at *
      dsimp only at *
      omega

theorem addDays_le {s e : Date} (k : Nat) (hs : s.Valid) (he : e.Valid)
    (hlt : Date.lt s e) (hk : s.d + k ≤ e.d) : Date.le (s.addDays k) e := by
  have hdim28 := dim_ge_28 s.y s.m
  have hdimE := dim_le_31 e.y e.m
  by_cases hin : s.d + k ≤ daysInMonth s.y s.m
  · obtain ⟨heq, _⟩ := addDays_inMonth hs hin
    rw [heq]
    unfold Date.lt at hlt
    unfold Date.le
    simp only
    omega
  · -- the addition spills into the following month
    have hsv := hs
    unfold Date.Valid at hsv he
    -- since the spill needs s.d + k > daysInMonth s.y s.m while
    -- s.d + k <= e.d <= 31, s and e cannot share the month
    have hmon : s.y < e.y ∨ (s.y = e.y ∧ s.m < e.m) := by
      unfold Date.lt at hlt
      by_contra hc
      push_neg at hc
      have hyy : s.y = e.y := by omega
      have hmm : s.m = e.m := by omega
      rw [hyy, hmm] at hdim28 hin
      omega
    set dim := daysInMonth s.y s.m with hdimDef
    have hj : s.d + (dim - s.d) = dim := by omega
    set j := dim - s.d with hjDef
    have hjk : j < k := by omega
    have hksplit : k = (j + 1) + (k - j - 1) := by omega
    obtain ⟨hjEq, hjValid⟩ := addDays_inMonth hs (show s.d + j ≤ dim by omega)
    have hstep : s.addDays k = ((s.addDays j).nextDay).addDays (k - j - 1) := by
      conv_lhs => rw [hksplit]
      rw [addDays_add]
      rfl
    rw [hstep, hjEq]
    have hjd : s.d + j = dim := hj
    by_cases hm12 : s.m < 12
    · have hnext : (Date.mk s.y s.m (s.d + j)).nextDay = ⟨s.y, s.m + 1, 1⟩ := by
        unfold Date.nextDay
        simp only
        rw [if_neg (by omega), if_pos hm12]
      rw [hnext]
      have hfv : (Date.mk s.y (s.m + 1) 1).Valid := by
        unfold Date.Valid
        simp only
        have := dim_ge_28 s.y (s.m + 1)
        omega
      have hfin : (1 : Nat) + (k - j - 1) ≤ daysInMonth s.y (s.m + 1) := by
        have := dim_ge_28 s.y (s.m + 1)
        omega
      obtain ⟨hfEq, _⟩ := addDays_inMonth hfv hfin
      rw [hfEq]
      unfold Date.le
      simp only
      omega
    · have hnext : (Date.mk s.y s.m (s.d + j)).nextDay = ⟨s.y + 1, 1, 1⟩ := by
        unfold Date.nextDay
        simp only
        rw [if_neg (by omega), if_neg hm12]
      rw [hnext]
      have hfv : (Date.mk (s.y + 1) 1 1).Valid := by
        unfold Date.Valid
        simp only
        have := dim_ge_28 (s.y + 1) 1
        omega
      have hfin : (1 : Nat) + (k - j - 1) ≤ daysInMonth (s.y + 1) 1 := by
        have := dim_ge_28 (s.y + 1) 1
        omega
      obtain ⟨hfEq, _⟩ := addDays_inMonth hfv hfin
      rw [hfEq]
      unfold Date.le
      simp only
      omega

/-! Predicates describing log states, and preservation lemmas. -/

/-- Every entry of the bucket has an "end" key. -/
def bucketClosed (es : Bucket) : Prop := ∀ e ∈ es, e.end?.isSome = true

/-- Every entry of the whole log has an "end" key. -/
def allClosed (tl : Log) : Prop := ∀ p ∈ tl, bucketClosed p.2

/-- Every entry of the log carries a well-formed start date. -/
def startsValid (tl : Log) : Prop := ∀ p ∈ tl, ∀ e ∈ p.2, e.start.date.Valid

/-- All day keys are bounded by `b`. -/
def keysLe (tl : Log) (b : Date) : Prop := ∀ p ∈ tl, Date.le p.1 b

/-- Every day key maps to a nonempty entry list. -/
def allNonempty (tl : Log) : Prop := ∀ p ∈ tl, p.2 ≠ []

/-- Shape of a log reachable by start/finish under a monotone clock: either
every interval is closed, or exactly the last entry of the chronologically
last day is open, and that entry started on that very day. -/
def openShape (tl : Log) : Prop :=
  allClosed tl ∨
  ∃ d pre e, maxKey tl = some d ∧ alfind tl d = some (pre ++ [e]) ∧
    e.end? = none ∧ e.start.date = d ∧ bucketClosed pre ∧
    ∀ p ∈ tl, p.1 ≠ d → bucketClosed p.2

/-- Inductive invariant for the start/finish state machine, with `b` an
upper bound on all day keys (the last clock reading). -/
def LogInv (tl : Log) (b : Date) : Prop :=
  keysLe tl b ∧ (lkeys tl).Nodup ∧ allNonempty tl ∧ startsValid tl ∧ openShape tl

theorem getLastQ_mem {α : Type} {l : List α} {a : α} (h : l.getLast? = some a) :
    a ∈ l := by
  have h2 : l ≠ [] := by
    intro he
    subst he
    simp at h
  rw [List.getLast?_eq_getLast_of_ne_nil h2] at h
  have h3 : l.getLast h2 = a := by
    injection h
  exact h3 ▸ List.getLast_mem h2

theorem bucketsP_alset {Q : Date → Bucket → Prop} {tl : Log} {k : Date}
    {v : Bucket} (h : ∀ p ∈ tl, Q p.1 p.2) (hv : Q k v) :
    ∀ p ∈ alset tl k v, Q p.1 p.2 := by
  intro p hp
  rcases mem_alset hp with h1 | h1
  · subst h1
    exact hv
  · exact h p h1

theorem nodup_keys_alset {tl : Log} {k : Date} {v : Bucket}
    (h : (lkeys tl).Nodup) : (lkeys (alset tl k v)).Nodup := by
  by_cases hm : k ∈ lkeys tl
  · have he : lkeys (alset tl k v) = lkeys tl := keys_alset_mem tl k v hm
    rw [he]
    exact h
  · have he : lkeys (alset tl k v) = lkeys tl ++ [k] := keys_alset_not_mem tl k v hm
    rw [he, List.nodup_append]
    refine ⟨h, List.nodup_singleton k, ?_⟩
    intro a ha hb
    rw [List.mem_singleton] at hb
    exact hm (hb ▸ ha)

theorem alfind_foldl_const (tl : Log) (v : Bucket) (ds : List Date) (d : Date) :
    alfind (ds.foldl (fun acc k => alset acc k v) tl) d =
      if d ∈ ds then some v else alfind tl d := by
  induction ds generalizing tl with
  | nil => simp
  | cons k rest ih =>
    simp only [List.foldl_cons]
    rw [ih]
    by_cases hd : d ∈ rest
    · simp [hd]
    · by_cases hk : d = k
      · subst hk
        simp [hd, alfind_alset_self]
      · simp [hd, hk, alfind_alset_ne tl k d v hk]

theorem bucketsP_foldl_const {Q : Date → Bucket → Prop} (ds : List Date)
    {tl : Log} {v : Bucket} (h : ∀ p ∈ tl, Q p.1 p.2) (hv : ∀ d ∈ ds, Q d v) :
    ∀ p ∈ ds.foldl (fun acc k => alset acc k v) tl, Q p.1 p.2 := by
  induction ds generalizing tl with
  | nil => exact h
  | cons k rest ih =>
    simp only [List.foldl_cons]
    refine ih (bucketsP_alset h (hv k (List.mem_cons_self k rest))) ?_
    intro d hd
    exact hv d (List.mem_cons_of_mem k hd)

theorem nodup_keys_foldl_const (ds : List Date) {tl : Log} {v : Bucket}
    (h : (lkeys tl).Nodup) :
    (lkeys (ds.foldl (fun acc k => alset acc k v) tl)).Nodup := by
  induction ds generalizing tl with
  | nil => exact h
  | cons k rest ih =>
    simp only [List.foldl_cons]
    exact ih (nodup_keys_alset h)

theorem alfind_fillDays (tl : Log) (e : Entry) (endTs : Timestamp) (n : Nat)
    (d : Date) :
    alfind (fillDays tl e endTs n) d =
      if d ∈ (List.range' 1 n).map (Date.addDays e.start.date)
      then some [mkFragment e endTs] else alfind tl d := by
  unfold fillDays
  rw [← List.foldl_map (Date.addDays e.start.date)
    (fun acc day => alset acc day [mkFragment e endTs]) (List.range' 1 n) tl]
  exact alfind_foldl_const tl [mkFragment e endTs]
    ((List.range' 1 n).map (Date.addDays e.start.date)) d

theorem bucketsP_fillDays {Q : Date → Bucket → Prop} {tl : Log} {e : Entry}
    {endTs : Timestamp} {n : Nat} (h : ∀ p ∈ tl, Q p.1 p.2)
    (hv : ∀ d ∈ (List.range' 1 n).map (Date.addDays e.start.date),
      Q d [mkFragment e endTs]) :
    ∀ p ∈ fillDays tl e endTs n, Q p.1 p.2 := by
  unfold fillDays
  rw [← List.foldl_map (Date.addDays e.start.date)
    (fun acc day => alset acc day [mkFragment e endTs]) (List.range' 1 n) tl]
  exact bucketsP_foldl_const _ h hv

theorem nodup_keys_fillDays {tl : Log} {e : Entry} {endTs : Timestamp}
    {n : Nat} (h : (lkeys tl).Nodup) :
    (lkeys (fillDays tl e endTs n)).Nodup := by
  unfold fillDays
  rw [← List.foldl_map (Date.addDays e.start.date)
    (fun acc day => alset acc day [mkFragment e endTs]) (List.range' 1 n) tl]
  exact nodup_keys_foldl_const _ h

theorem mem_alset_nodup {κ α : Type} [DecidableEq κ] {l : List (κ × α)}
    {k : κ} {v : α} {p : κ × α} (hnd : (l.map (fun q => q.1)).Nodup)
    (hp : p ∈ alset l k v) : p = (k, v) ∨ (p ∈ l ∧ p.1 ≠ k) := by
  induction l with
  | nil =>
    simp only [alset, List.mem_singleton] at hp
    exact Or.inl hp
  | cons q rest ih =>
    simp only [List.map_cons, List.nodup_cons] at hnd
    by_cases h : q.1 = k
    · simp only [alset, h, if_pos rfl] at hp
      rcases List.mem_cons.mp hp with h1 | h1
      · exact Or.inl h1
      · refine Or.inr ⟨List.mem_cons_of_mem _ h1, ?_⟩
        intro he
        exact hnd.1 (h ▸ he ▸ List.mem_map.mpr ⟨p, h1, rfl⟩)
    · simp only [alset, h, if_neg h] at hp
      rcases List.mem_cons.mp hp with h1 | h1
      · refine Or.inr ⟨h1 ▸ List.mem_cons_self _ _, ?_⟩
        rw [h1]
        exact h
      · rcases ih hnd.2 h1 with h2 | h2
        · exact Or.inl h2
        · exact Or.inr ⟨List.mem_cons_of_mem _ h2.1, h2.2⟩

/-! Characterizations of `current_activity` and `done`. -/

theorem ca_ne_indexError {tl : Log} (hne : allNonempty tl) :
    ∀ er, current_activity tl ≠ .error er := by
  intro er
  unfold current_activity
  rcases hmax : maxKey tl with _ | day
  · simp
  · obtain ⟨es, hfind⟩ := alfind_isSome_of_mem_keys (maxKey_mem hmax)
    have hmem : (day, es) ∈ tl := alfind_mem hfind
    have hne2 : es ≠ [] := hne _ hmem
    rcases hl : es.getLast? with _ | la
    · rw [List.getLast?_eq_none_iff] at hl
      exact absurd hl hne2
    · simp only [hfind, Option.getD_some, hl]
      by_cases hc : la.end?.isSome <;> simp [hc]

theorem ca_of_allClosed {tl : Log} (hac : allClosed tl) (hne : allNonempty tl) :
    current_activity tl = .ok none := by
  unfold current_activity
  rcases hmax : maxKey tl with _ | day
  · rfl
  · obtain ⟨es, hfind⟩ := alfind_isSome_of_mem_keys (maxKey_mem hmax)
    have hmem : (day, es) ∈ tl := alfind_mem hfind
    have hne2 : es ≠ [] := hne _ hmem
    rcases hl : es.getLast? with _ | la
    · rw [List.getLast?_eq_none_iff] at hl
      exact absurd hl hne2
    · have hcl : la.end?.isSome = true := hac _ hmem la (getLastQ_mem hl)
      simp [hfind, hl, hcl]

theorem ca_of_open {tl : Log} {d : Date} {pre : Bucket} {e : Entry}
    (hmax : maxKey tl = some d) (hfind : alfind tl d = some (pre ++ [e]))
    (hopen : e.end? = none) : current_activity tl = .ok (some e) := by
  unfold current_activity
  rw [hmax]
  simp only [hfind, Option.getD_some, List.getLast?_concat]
  simp [hopen]

theorem done_nil (now : Timestamp) : done [] now = .error (.indexError, []) := rfl

theorem done_unfold {tl : Log} {day : Date} {es : Bucket} {la : Entry}
    (now : Timestamp) (hmax : maxKey tl = some day)
    (hfind : alfind tl day = some es) (hlast : es.getLast? = some la) :
    done tl now =
      (if Date.lt now.date la.start.date then
        .error (.timelineError skewMsg,
          alset tl day (es.dropLast ++ [{ la with end? := some now }]))
      else
        .ok ((la.start, now, la.name),
          if la.start.date ≠ now.date then
            fillDays (alset tl day (es.dropLast ++ [{ la with end? := some now }]))
              { la with end? := some now } now
              (((now.date.d : Int) - (la.start.date.d : Int)).toNat)
          else alset tl day (es.dropLast ++ [{ la with end? := some now }]))) := by
  unfold done
  rw [hmax]
  simp only [hfind, Option.getD_some, hlast]

/-- Log state visible after a `done` call, whether it returned or raised. -/
def doneLog (tl : Log) (now : Timestamp) : Log :=
  match done tl now with
  | .ok (_, tl2) => tl2
  | .error (_, tl2) => tl2

/-- Timeline state visible after a `start` call, whether it returned or
raised. -/
def startTL (t : TL) (a : String) (now : Timestamp) : TL :=
  match start t a now with
  | .ok (_, t2) => t2
  | .error (_, t2) => t2

theorem applyOp_start (t : TL) (a : String) (now : Timestamp) :
    applyOp t (.startOp a now) = startTL t a now := by
  unfold applyOp startTL
  rcases h : start t a now with ⟨e, t2⟩ | ⟨r, t2⟩ <;> simp [h]

theorem applyOp_finish (t : TL) (now : Timestamp) :
    applyOp t (.finishOp now) = { t with timeline := doneLog t.timeline now } := by
  unfold applyOp doneLog
  rcases h : done t.timeline now with ⟨e, tl2⟩ | ⟨r, tl2⟩ <;> simp [h]

theorem LogInv_nil (b : Date) : LogInv [] b := by
  refine ⟨?_, ?_, ?_, ?_, Or.inl ?_⟩
  · intro p hp
    cases hp
  · simp [lkeys]
  · intro p hp
    cases hp
  · intro p hp
    cases hp
  · intro p hp
    cases hp

theorem done_inv {tl : Log} {b : Date} (now : Timestamp) (hI : LogInv tl b)
    (hvn : now.date.Valid) (hb : Date.le b now.date) :
    LogInv (doneLog tl now) now.date ∧ allClosed (doneLog tl now) := by
  obtain ⟨hKle, hNd, hNe, hSv, hSh⟩ := hI
  rcases hmax : maxKey tl with _ | day
  · have htl : tl = [] := (maxKey_none_iff tl).mp hmax
    subst htl
    have hd : doneLog [] now = [] := by
      unfold doneLog
      rw [done_nil]
    rw [hd]
    refine ⟨LogInv_nil now.date, ?_⟩
    intro p hp
    cases hp
  · obtain ⟨es, hfind⟩ := alfind_isSome_of_mem_keys (maxKey_mem hmax)
    have hmem : (day, es) ∈ tl := alfind_mem hfind
    have hesne : es ≠ [] := hNe _ hmem
    rcases hl : es.getLast? with _ | la
    · rw [List.getLast?_eq_none_iff] at hl
      exact absurd hl hesne
    · have hlamem : la ∈ es := getLastQ_mem hl
      have hdayle : Date.le day now.date := dle_trans (hKle _ hmem) hb
      obtain ⟨hdropclosed, hothers⟩ :
          bucketClosed es.dropLast ∧ (∀ p ∈ tl, p.1 ≠ day → bucketClosed p.2) := by
        rcases hSh with hac | ⟨d2, pre, e2, hmax2, hfind2, hopen2, hsd2, hpre2, hoth2⟩
        · exact ⟨fun x hx => hac _ hmem x ((List.dropLast_sublist es).subset hx),
            fun p hp _ => hac p hp⟩
        · have hdd : d2 = day := by
            rw [hmax] at hmax2
            exact (Option.some.inj hmax2).symm
          subst hdd
          have hee : es = pre ++ [e2] := by
            rw [hfind] at hfind2
            exact Option.some.inj hfind2
          constructor
          · rw [hee, List.dropLast_concat]
            exact hpre2
          · exact hoth2
      set closed : Entry := { la with end? := some now } with hclosedDef
      set tl1 := alset tl day (es.dropLast ++ [closed]) with htl1Def
      have hKle1 : keysLe tl1 now.date := by
        intro p hp
        rcases mem_alset hp with h1 | h1
        · rw [h1]
          exact hdayle
        · exact dle_trans (hKle p h1) hb
      have hNd1 : (lkeys tl1).Nodup := nodup_keys_alset hNd
      have hNe1 : allNonempty tl1 := by
        intro p hp
        rcases mem_alset hp with h1 | h1
        · rw [h1]
          simp
        · exact hNe p h1
      have hSv1 : startsValid tl1 := by
        intro p hp x hx
        rcases mem_alset hp with h1 | h1
        · subst h1
          rcases List.mem_append.mp hx with h2 | h2
          · exact hSv _ hmem x ((List.dropLast_sublist es).subset h2)
          · rw [List.mem_singleton] at h2
            subst h2
            exact hSv _ hmem la hlamem
        · exact hSv p h1 x hx
      have hAC1 : allClosed tl1 := by
        intro p hp
        rcases mem_alset_nodup hNd hp with h1 | ⟨h1, hne1⟩
        · subst h1
          intro x hx
          rcases List.mem_append.mp hx with h2 | h2
          · exact hdropclosed x h2
          · rw [List.mem_singleton] at h2
            subst h2
            rfl
        · exact hothers p h1 hne1
      have hdone := done_unfold now hmax hfind hl
      by_cases hskew : Date.lt now.date la.start.date
      · have hd : doneLog tl now = tl1 := by
          unfold doneLog
          rw [hdone, if_pos hskew]
        rw [hd]
        exact ⟨⟨hKle1, hNd1, hNe1, hSv1, Or.inl hAC1⟩, hAC1⟩
      · by_cases hdiff : la.start.date ≠ now.date
        · have hd : doneLog tl now =
              fillDays tl1 closed now
                (((now.date.d : Int) - (la.start.date.d : Int)).toNat) := by
            unfold doneLog
            rw [hdone, if_neg hskew, if_pos hdiff]
          rw [hd]
          have hsv : la.start.date.Valid := hSv _ hmem la hlamem
          have hslt : Date.lt la.start.date now.date := dlt_of_not_lt_of_ne hskew hdiff
          have hcs : closed.start = la.start := rfl
          have hdays : ∀ d2 ∈ (List.range' 1
              (((now.date.d : Int) - (la.start.date.d : Int)).toNat)).map
              (Date.addDays closed.start.date), Date.le d2 now.date := by
            intro d2 hd2
            rcases List.mem_map.mp hd2 with ⟨k, hk, hdk⟩
            rw [List.mem_range'_1] at hk
            have hkle : la.start.date.d + k ≤ now.date.d := by omega
            rw [← hdk, hcs]
            exact addDays_le k hsv hvn hslt hkle
          have hACf : allClosed (fillDays tl1 closed now
              (((now.date.d : Int) - (la.start.date.d : Int)).toNat)) := by
            refine @bucketsP_fillDays (fun _ es => bucketClosed es) tl1 closed now _
              (fun p hp => hAC1 p hp) ?_
            intro d2 _
            intro x hx
            rw [List.mem_singleton] at hx
            subst hx
            rfl
          refine ⟨⟨?_, ?_, ?_, ?_, Or.inl hACf⟩, hACf⟩
          · refine @bucketsP_fillDays (fun d2 _ => Date.le d2 now.date) tl1 closed now _
              (fun p hp => hKle1 p hp) ?_
            intro d2 hd2
            exact hdays d2 hd2
          · exact nodup_keys_fillDays hNd1
          · refine @bucketsP_fillDays (fun _ es => es ≠ []) tl1 closed now _
              (fun p hp => hNe1 p hp) ?_
            intro d2 _
            simp
          · refine @bucketsP_fillDays (fun _ es => ∀ x ∈ es, x.start.date.Valid)
              tl1 closed now _ (fun p hp => hSv1 p hp) ?_
            intro d2 _
            intro x hx
            rw [List.mem_singleton] at hx
            subst hx
            exact hsv
        · have hd : doneLog tl now = tl1 := by
            unfold doneLog
            rw [hdone, if_neg hskew, if_neg hdiff]
          rw [hd]
          exact ⟨⟨hKle1, hNd1, hNe1, hSv1, Or.inl hAC1⟩, hAC1⟩

theorem LogInv_mono {tl : Log} {b b2 : Date} (hI : LogInv tl b)
    (hb : Date.le b b2) : LogInv tl b2 :=
  ⟨fun p hp => dle_trans (hI.1 p hp) hb, hI.2.1, hI.2.2.1, hI.2.2.2.1,
    hI.2.2.2.2⟩

theorem startTL_of_ok {t : TL} {a : String} {now : Timestamp}
    {r : Option (Timestamp × Timestamp × String)} {t2 : TL}
    (h : start t a now = .ok (r, t2)) : startTL t a now = t2 := by
  unfold startTL
  rw [h]

theorem startTL_of_error {t : TL} {a : String} {now : Timestamp}
    {er : Err} {t2 : TL} (h : start t a now = .error (er, t2)) :
    startTL t a now = t2 := by
  unfold startTL
  rw [h]

theorem start_unknown {t : TL} {a : String} (now : Timestamp)
    (h : activity_id t.activities a = none) :
    start t a now =
      .error (.timelineError ("The activity " ++ a ++ " does not exist."), t) := by
  unfold start
  simp only [h]

theorem start_none {t : TL} {a aid : String} (now : Timestamp)
    (hid : activity_id t.activities a = some aid)
    (hca : current_activity t.timeline = .ok none) :
    start t a now = .ok (none,
      ⟨alset t.timeline now.date ((alfind t.timeline now.date).getD [] ++
        [⟨aid, a, now, none, false⟩]), t.activities⟩) := by
  unfold start
  simp only [hid, hca]

theorem start_some_error {t : TL} {a aid : String} {e : Entry} {er : Err}
    {tl2 : Log} (now : Timestamp)
    (hid : activity_id t.activities a = some aid)
    (hca : current_activity t.timeline = .ok (some e))
    (hdn : done t.timeline now = .error (er, tl2)) :
    start t a now = .error (er, { t with timeline := tl2 }) := by
  unfold start
  simp only [hid, hca, hdn]

theorem start_some_ok {t : TL} {a aid : String} {e : Entry}
    {res : Timestamp × Timestamp × String} {tl2 : Log} (now : Timestamp)
    (hid : activity_id t.activities a = some aid)
    (hca : current_activity t.timeline = .ok (some e))
    (hdn : done t.timeline now = .ok (res, tl2)) :
    start t a now = .ok (some res,
      ⟨alset tl2 now.date ((alfind tl2 now.date).getD [] ++
        [⟨aid, a, now, none, false⟩]), t.activities⟩) := by
  unfold start
  simp only [hid, hca, hdn]

theorem append_inv {tl : Log} (now : Timestamp) (aid a : String)
    (hKle : keysLe tl now.date) (hNd : (lkeys tl).Nodup)
    (hNe : allNonempty tl) (hSv : startsValid tl) (hAC : allClosed tl)
    (hvn : now.date.Valid) :
    LogInv (alset tl now.date ((alfind tl now.date).getD [] ++
      [{ id := aid, name := a, start := now, end? := none,
         previous := false }])) now.date := by
  set e0 : Entry :=
    { id := aid, name := a, start := now, end? := none, previous := false }
    with he0
  set bucket := (alfind tl now.date).getD [] with hbucket
  have hbclosed : bucketClosed bucket := by
    rcases hf : alfind tl now.date with _ | es
    · rw [hbucket, hf]
      intro x hx
      cases hx
    · rw [hbucket, hf]
      exact hAC _ (alfind_mem hf)
  have hbvalid : ∀ x ∈ bucket, x.start.date.Valid := by
    rcases hf : alfind tl now.date with _ | es
    · rw [hbucket, hf]
      intro x hx
      cases hx
    · rw [hbucket, hf]
      exact hSv _ (alfind_mem hf)
  set tl2 := alset tl now.date (bucket ++ [e0]) with htl2
  have hKle2 : keysLe tl2 now.date := by
    intro p hp
    rcases mem_alset hp with h1 | h1
    · rw [h1]
      exact dle_refl now.date
    · exact hKle p h1
  have hfind2 : alfind tl2 now.date = some (bucket ++ [e0]) :=
    alfind_alset_self tl now.date (bucket ++ [e0])
  have hmem2 : now.date ∈ lkeys tl2 :=
    List.mem_map.mpr ⟨_, alfind_mem hfind2, rfl⟩
  refine ⟨hKle2, nodup_keys_alset hNd, ?_, ?_, Or.inr ⟨now.date, bucket, e0,
    ?_, hfind2, rfl, rfl, hbclosed, ?_⟩⟩
  · intro p hp
    rcases mem_alset hp with h1 | h1
    · rw [h1]
      simp
    · exact hNe p h1
  · intro p hp x hx
    rcases mem_alset hp with h1 | h1
    · subst h1
      rcases List.mem_append.mp hx with h2 | h2
      · exact hbvalid x h2
      · rw [List.mem_singleton] at h2
        subst h2
        exact hvn
    · exact hSv p h1 x hx
  · refine maxKey_eq_of hmem2 ?_
    intro k hk
    rcases List.mem_map.mp hk with ⟨p, hp, hpk⟩
    exact hpk ▸ hKle2 p hp
  · intro p hp hne1
    rcases mem_alset_nodup hNd hp with h1 | ⟨h1, hne2⟩
    · rw [h1] at hne1
      exact absurd rfl hne1
    · exact hAC p h1

theorem start_inv {t : TL} {b : Date} (a : String) (now : Timestamp)
    (hI : LogInv t.timeline b) (hvn : now.date.Valid)
    (hb : Date.le b now.date) : LogInv (startTL t a now).timeline now.date := by
  have hI2 := hI
  obtain ⟨hKle, hNd, hNe, hSv, hSh⟩ := hI2
  rcases hid : activity_id t.activities a with _ | aid
  · rw [startTL_of_error (start_unknown now hid)]
    exact LogInv_mono hI hb
  · rcases hca : current_activity t.timeline with er | cur
    · exact absurd hca (ca_ne_indexError hNe er)
    · cases cur with
      | none =>
        have hAC : allClosed t.timeline := by
          rcases hSh with hac | ⟨d, pre, e2, hmax2, hfind2, hopen2, _, _, _⟩
          · exact hac
          · rw [ca_of_open hmax2 hfind2 hopen2] at hca
            simp at hca
        rw [startTL_of_ok (start_none now hid hca)]
        dsimp only
        exact append_inv now aid a (fun p hp => dle_trans (hKle p hp) hb)
          hNd hNe hSv hAC hvn
      | some e =>
        have hdi := done_inv now hI hvn hb
        rcases hdn : done t.timeline now with ⟨er, tl2⟩ | ⟨res, tl2⟩
        · have hdl : doneLog t.timeline now = tl2 := by
            unfold doneLog
            rw [hdn]
          rw [hdl] at hdi
          rw [startTL_of_error (start_some_error now hid hca hdn)]
          exact hdi.1
        · have hdl : doneLog t.timeline now = tl2 := by
            unfold doneLog
            rw [hdn]
          rw [hdl] at hdi
          obtain ⟨⟨hKle2, hNd2, hNe2, hSv2, _⟩, hAC2⟩ := hdi
          rw [startTL_of_ok (start_some_ok now hid hca hdn)]
          dsimp only
          exact append_inv now aid a hKle2 hNd2 hNe2 hSv2 hAC2 hvn

theorem run_inv (ops : List Op) : ∀ (t : TL) (b : Date), LogInv t.timeline b →
    ClockOK b ops → ∃ b2, LogInv (run t ops).timeline b2 := by
  induction ops with
  | nil =>
    intro t b hI _
    exact ⟨b, hI⟩
  | cons op rest ih =>
    intro t b hI hck
    obtain ⟨hv, hb, hrest⟩ := hck
    have hstep : LogInv (applyOp t op).timeline op.now.date := by
      cases op with
      | startOp a now =>
        rw [applyOp_start]
        exact start_inv a now hI hv hb
      | finishOp now =>
        rw [applyOp_finish]
        exact (done_inv now hI hv hb).1
    exact ih (applyOp t op) op.now.date hstep hrest

theorem openCount_cons (p : Date × Bucket) (rest : Log) :
    openCount (p :: rest) =
      p.2.countP (fun e => e.end?.isNone) + openCount rest := by
  unfold openCount
  simp

theorem countP_closed {es : Bucket} (h : bucketClosed es) :
    es.countP (fun e => e.end?.isNone) = 0 := by
  rw [List.countP_eq_zero]
  intro e he
  have h2 := h e he
  intro hcon
  rw [Option.isNone_iff_eq_none] at hcon
  rw [hcon] at h2
  simp at h2

theorem openCount_allClosed {tl : Log} (h : allClosed tl) : openCount tl = 0 := by
  induction tl with
  | nil => rfl
  | cons p rest ih =>
    rw [openCount_cons, countP_closed (h p (List.mem_cons_self p rest))]
    rw [ih (fun q hq => h q (List.mem_cons_of_mem p hq))]

theorem openCount_shape {tl : Log} (hNd : (lkeys tl).Nodup)
    (hSh : openShape tl) : openCount tl ≤ 1 := by
  rcases hSh with hac | ⟨d, pre, e, hmax, hfind, hopen, hsd, hpre, hoth⟩
  · rw [openCount_allClosed hac]
    omega
  · clear hmax hsd hopen
    induction tl with
    | nil => simp [openCount]
    | cons q rest ih =>
      rw [openCount_cons]
      simp only [lkeys, List.map_cons, List.nodup_cons] at hNd
      by_cases hq : q.1 = d
      · have hqb : q.2 = pre ++ [e] := by
          have : alfind (q :: rest) d = some q.2 := by
            cases q
            simp only at hq
            simp [alfind, hq]
          exact Option.some.inj (this.symm.trans hfind)
        have hrest0 : openCount rest = 0 := by
          refine openCount_allClosed ?_
          intro p hp
          refine hoth p (List.mem_cons_of_mem q hp) ?_
          intro he
          exact hNd.1 (hq ▸ he ▸ List.mem_map.mpr ⟨p, hp, rfl⟩)
        rw [hrest0, hqb, List.countP_append]
        rw [countP_closed hpre]
        simp only [List.countP_cons, List.countP_nil]
        split <;> omega
      · have hq0 : q.2.countP (fun e => e.end?.isNone) = 0 :=
          countP_closed (hoth q (List.mem_cons_self q rest) hq)
        rw [hq0]
        have hfind2 : alfind rest d = some (pre ++ [e]) := by
          have : alfind (q :: rest) d = alfind rest d := by
            cases q
            simp only at hq
            simp [alfind, hq]
          exact this ▸ hfind
        have hoth2 : ∀ p ∈ rest, p.1 ≠ d → bucketClosed p.2 :=
          fun p hp => hoth p (List.mem_cons_of_mem q hp)
        simpa using ih hNd.2 hfind2 hoth2

theorem openIsLast_shape {tl : Log} (hNd : (lkeys tl).Nodup)
    (hSh : openShape tl) : openIsLast tl := by
  intro p hp e he hopen
  rcases hSh with hac | ⟨d, pre, e0, hmax, hfind, hopen0, hsd, hpre, hoth⟩
  · have h2 := hac p hp e he
    rw [hopen] at h2
    simp at h2
  · by_cases hpd : p.1 = d
    · have hfp : alfind tl p.1 = some p.2 := by
        refine alfind_of_mem_nodup hNd ?_
        cases p
        exact hp
      rw [hpd] at hfp
      have hbe : p.2 = pre ++ [e0] := Option.some.inj (hfp.symm.trans hfind)
      have he2 : e = e0 := by
        rw [hbe] at he
        rcases List.mem_append.mp he with h2 | h2
        · have h3 := hpre e h2
          rw [hopen] at h3
          simp at h3
        · rw [List.mem_singleton] at h2
          exact h2
      constructor
      · rw [hpd]
        exact hmax
      · rw [hbe, he2]
        exact List.getLast?_concat pre
    · have h2 := hoth p hp hpd e he
      rw [hopen] at h2
      simp at h2

/-! Counting and ordering lemmas for `recent_activities`. -/

/-- Number of non-fragment ("real") entries of a bucket. -/
def nfCount (es : Bucket) : Nat := es.countP (fun e => !e.previous)

/-- Number of non-fragment entries of a whole day-bucket list. -/
def totalNF (l : Log) : Nat := (l.map (fun p => nfCount p.2)).sum

/-- Day buckets sorted by weakly descending day key. -/
def SortedD (l : Log) : Prop := List.Pairwise (fun a b => Date.le b.1 a.1) l

theorem totalNF_append (a b : Log) : totalNF (a ++ b) = totalNF a + totalNF b := by
  unfold totalNF
  simp

theorem insDesc_perm (p : Date × Bucket) (l : Log) :
    (insDesc p l).Perm (p :: l) := by
  induction l with
  | nil => exact List.Perm.refl _
  | cons q rest ih =>
    unfold insDesc
    by_cases h : Date.le q.1 p.1
    · rw [if_pos h]
    · rw [if_neg h]
      exact (List.Perm.cons q ih).trans (List.Perm.swap p q rest)

theorem sortDesc_perm (l : Log) : (sortDesc l).Perm l := by
  induction l with
  | nil => exact List.Perm.refl _
  | cons p rest ih =>
    unfold sortDesc
    exact (insDesc_perm p (sortDesc rest)).trans (List.Perm.cons p ih)

theorem insDesc_sorted {p : Date × Bucket} {l : Log} (h : SortedD l) :
    SortedD (insDesc p l) := by
  induction l with
  | nil => simp [insDesc, SortedD]
  | cons q rest ih =>
    unfold insDesc
    rcases List.pairwise_cons.mp h with ⟨hq, hrest⟩
    by_cases hle : Date.le q.1 p.1
    · rw [if_pos hle]
      refine List.pairwise_cons.mpr ⟨?_, h⟩
      intro b hb
      rcases List.mem_cons.mp hb with h1 | h1
      · rw [h1]
        exact hle
      · exact dle_trans (hq b h1) hle
    · rw [if_neg hle]
      refine List.pairwise_cons.mpr ⟨?_, ih hrest⟩
      intro b hb
      have hb2 : b ∈ p :: rest := (insDesc_perm p rest).subset hb
      rcases List.mem_cons.mp hb2 with h1 | h1
      · subst h1
        rcases dle_total q.1 b.1 with h2 | h2
        · exact absurd h2 hle
        · exact h2
      · exact hq b h1

theorem sortDesc_sorted (l : Log) : SortedD (sortDesc l) := by
  induction l with
  | nil => simp [sortDesc, SortedD]
  | cons p rest ih =>
    unfold sortDesc
    exact insDesc_sorted ih

theorem recentDay_spec : ∀ (es : Bucket) (num : Int) (col : Bucket) (rem : Int)
    (st : Bool), recentDay es num = (col, rem, st) →
    (∀ e ∈ col, e.previous = false) ∧ col.Sublist es ∧
    (st = true → (nfCount col : Int) = num ∧ rem = 0 ∧ 1 ≤ num) ∧
    (st = false → nfCount col = nfCount es ∧ rem = num - nfCount es ∧
      (1 ≤ num → (nfCount es : Int) < num)) := by
  intro es
  induction es with
  | nil =>
    intro num col rem st h
    unfold recentDay at h
    injection h with h1 h2
    injection h2 with h2 h3
    subst h1
    subst h2
    subst h3
    refine ⟨by simp, List.Sublist.refl [], by simp, ?_⟩
    intro _
    refine ⟨rfl, by simp [nfCount], ?_⟩
    intro h1
    simp [nfCount]
    omega
  | cons e rest ih =>
    intro num col rem st h
    unfold recentDay at h
    by_cases hp : e.previous
    · rw [if_pos hp] at h
      obtain ⟨h1, h2, h3, h4⟩ := ih num col rem st h
      have hnf : nfCount (e :: rest) = nfCount rest := by
        simp [nfCount, List.countP_cons, hp]
      refine ⟨h1, h2.cons e, h3, ?_⟩
      intro hst
      rw [hnf]
      exact h4 hst
    · rw [if_neg hp] at h
      have hpf : e.previous = false := by
        rw [Bool.not_eq_true] at hp
        exact hp
      have hnf : nfCount (e :: rest) = nfCount rest + 1 := by
        simp [nfCount, List.countP_cons, hpf]
      by_cases hz : num - 1 = 0
      · rw [if_pos hz] at h
        injection h with h1 h2
        injection h2 with h2 h3
        subst h1
        subst h2
        subst h3
        refine ⟨?_, ?_, ?_, by simp⟩
        · intro x hx
          rw [List.mem_singleton] at hx
          subst hx
          exact hpf
        · exact (List.nil_sublist rest).cons₂ e
        · intro _
          have : nfCount [e] = 1 := by simp [nfCount, List.countP_cons, hpf]
          rw [this]
          omega
      · rw [if_neg hz] at h
        rcases hr : recentDay rest (num - 1) with ⟨col2, rem2, st2⟩
        rw [hr] at h
        injection h with h1 h2
        injection h2 with h2 h3
        subst h1
        subst h2
        subst h3
        obtain ⟨h1, h2, h3, h4⟩ := ih (num - 1) col2 rem2 st2 hr
        have hnfc : nfCount (e :: col2) = nfCount col2 + 1 := by
          simp [nfCount, List.countP_cons, hpf]
        refine ⟨?_, h2.cons₂ e, ?_, ?_⟩
        · intro x hx
          rcases List.mem_cons.mp hx with hx1 | hx1
          · subst hx1
            exact hpf
          · exact h1 x hx1
        · intro hst
          obtain ⟨c1, c2, c3⟩ := h3 hst
          rw [hnfc]
          push_cast
          constructor
          · omega
          · omega
        · intro hst
          obtain ⟨c1, c2, c3⟩ := h4 hst
          rw [hnfc, hnf]
          refine ⟨by omega, by push_cast; omega, ?_⟩
          intro hge
          push_cast
          by_cases hnum1 : (1 : Int) ≤ num - 1
          · have := c3 hnum1
            omega
          · have hc0 : nfCount rest = 0 := by
              by_contra hcc
              have : 1 ≤ nfCount rest := Nat.one_le_iff_ne_zero.mpr hcc
              have h5 := c1
              have h6 : 1 ≤ nfCount col2 := by omega
              omega
            omega

theorem totalNF_cons (p : Date × Bucket) (r : Log) :
    totalNF (p :: r) = nfCount p.2 + totalNF r := by
  simp [totalNF]

theorem recentGo_spec : ∀ (l : Log) (num : Int),
    (∀ p ∈ recentGo l num, ∀ e ∈ p.2, e.previous = false) ∧
    (lkeys (recentGo l num)).Sublist (lkeys l) ∧
    (∀ p ∈ recentGo l num, ∃ es0, (p.1, es0) ∈ l ∧ p.2.Sublist es0 ∧ p.2 ≠ []) ∧
    (1 ≤ num → (totalNF (recentGo l num) : Int) = min num (totalNF l)) := by
  intro l
  induction l with
  | nil =>
    intro num
    refine ⟨by simp [recentGo], by simp [recentGo, lkeys], by simp [recentGo], ?_⟩
    intro h1
    simp [recentGo, totalNF]
    omega
  | cons q rest ih =>
    intro num
    rcases q with ⟨d, es⟩
    rcases hr : recentDay es num with ⟨col, rem, st⟩
    obtain ⟨hnofrag, hsub, hstT, hstF⟩ := recentDay_spec es num col rem st hr
    have hcolnf : nfCount col ≤ nfCount es := List.Sublist.countP_le _ hsub
    cases st with
    | true =>
      obtain ⟨c1, c2, c3⟩ := hstT rfl
      rcases col with _ | ⟨c0, ct⟩
      · exfalso
        simp [nfCount] at c1
        omega
      · have hgo : recentGo ((d, es) :: rest) num = [(d, c0 :: ct)] := by
          rw [recentGo]
          simp only [hr]
          simp
        rw [hgo]
        refine ⟨?_, ?_, ?_, ?_⟩
        · intro p hp
          rw [List.mem_singleton] at hp
          subst hp
          exact hnofrag
        · simp only [lkeys, List.map_cons, List.map_nil]
          exact (List.nil_sublist _).cons₂ d
        · intro p hp
          rw [List.mem_singleton] at hp
          subst hp
          exact ⟨es, List.mem_cons_self _ _, hsub, by simp⟩
        · intro h1
          have ht : totalNF [(d, c0 :: ct)] = nfCount (c0 :: ct) := by
            simp [totalNF]
          rw [ht, totalNF_cons]
          push_cast
          omega
    | false =>
      obtain ⟨c1, c2, c3⟩ := hstF rfl
      obtain ⟨ih1, ih2, ih3, ih4⟩ := ih rem
      rcases col with _ | ⟨c0, ct⟩
      · have hnfz : nfCount es = 0 := by
          have : nfCount ([] : Bucket) = 0 := by simp [nfCount]
          omega
        have hgo : recentGo ((d, es) :: rest) num = recentGo rest rem := by
          rw [recentGo]
          simp only [hr]
          simp
        rw [hgo]
        refine ⟨ih1, ?_, ?_, ?_⟩
        · simp only [lkeys, List.map_cons]
          exact ih2.cons d
        · intro p hp
          obtain ⟨es0, hm, hs, hne⟩ := ih3 p hp
          exact ⟨es0, List.mem_cons_of_mem _ hm, hs, hne⟩
        · intro h1
          have hrem : (1 : Int) ≤ rem := by omega
          have hcount := ih4 hrem
          rw [totalNF_cons]
          push_cast
          push_cast at hcount
          omega
      · have hgo : recentGo ((d, es) :: rest) num =
            (d, c0 :: ct) :: recentGo rest rem := by
          rw [recentGo]
          simp only [hr]
          simp
        rw [hgo]
        refine ⟨?_, ?_, ?_, ?_⟩
        · intro p hp
          rcases List.mem_cons.mp hp with h1 | h1
          · subst h1
            exact hnofrag
          · exact ih1 p h1
        · simp only [lkeys, List.map_cons]
          exact ih2.cons₂ d
        · intro p hp
          rcases List.mem_cons.mp hp with h1 | h1
          · subst h1
            exact ⟨es, List.mem_cons_self _ _, hsub, by simp⟩
          · obtain ⟨es0, hm, hs, hne⟩ := ih3 p h1
            exact ⟨es0, List.mem_cons_of_mem _ hm, hs, hne⟩
        · intro h1
          have hlt : (nfCount es : Int) < num := c3 h1
          have hrem : (1 : Int) ≤ rem := by omega
          have hcount := ih4 hrem
          rw [totalNF_cons, totalNF_cons]
          push_cast
          push_cast at hcount
          omega

/-! Catalog lemmas. -/

theorem Catalog.mk_children (c : Catalog) : Catalog.mk c.children = c := by
  cases c
  rfl

theorem insertGo_nil (parents : Bool) (ids : List String) (leaf : String)
    (cs : List (String × String × Catalog)) :
    insertGo parents ids [] leaf cs =
      .ok (alset cs leaf (ids.headD "", Catalog.mk [])) := rfl

theorem insertGo_parents_ok : ∀ (path : List String) (leaf : String)
    (ids : List String) (cs : List (String × String × Catalog)),
    ∃ cs2, insertGo true ids path leaf cs = .ok cs2 := by
  intro path
  induction path with
  | nil =>
    intro leaf ids cs
    exact ⟨_, rfl⟩
  | cons seg rest ih =>
    intro leaf ids cs
    rcases hf : alfind cs seg with _ | ⟨aid, child⟩
    · obtain ⟨cs2, h2⟩ := ih leaf ids.tail []
      refine ⟨alset cs seg (ids.headD "", Catalog.mk cs2), ?_⟩
      simp [insertGo, hf, h2]
    · obtain ⟨cs2, h2⟩ := ih leaf ids child.children
      refine ⟨alset cs seg (aid, Catalog.mk cs2), ?_⟩
      simp [insertGo, hf, h2]

theorem insertGo_error_eq : ∀ (path : List String) (leaf : String)
    (ids : List String) (cs : List (String × String × Catalog)) (e : Err)
    (cs2 : List (String × String × Catalog)),
    insertGo false ids path leaf cs = .error (e, cs2) → cs2 = cs := by
  intro path
  induction path with
  | nil =>
    intro leaf ids cs e cs2 h
    simp [insertGo] at h
  | cons seg rest ih =>
    intro leaf ids cs e cs2 h
    rcases hf : alfind cs seg with _ | ⟨aid, child⟩
    · simp only [insertGo, hf, Bool.false_eq_true, if_false] at h
      have h2 := h
      injection h2 with h3
      injection h3 with h4 h5
      exact h5.symm
    · rcases hi : insertGo false ids rest leaf child.children with ⟨e3, cs3⟩ | cs3
      · simp only [insertGo, hf, hi] at h
        have hcs3 : cs3 = child.children := ih leaf ids child.children e3 cs3 hi
        injection h with h3
        injection h3 with h4 h5
        subst hcs3
        rw [← h5, Catalog.mk_children]
        exact alset_eq_self hf
      · simp only [insertGo, hf, hi] at h
        exact Except.noConfusion h

theorem insertGo_follow : ∀ (path : List String) (leaf : String)
    (ids : List String) (cs cs2 : List (String × String × Catalog)),
    insertGo false ids path leaf cs = .ok cs2 →
    ∃ dest, follow cs path = some dest ∧
      follow cs2 path = some (alset dest leaf (ids.headD "", Catalog.mk [])) := by
  intro path
  induction path with
  | nil =>
    intro leaf ids cs cs2 h
    rw [insertGo_nil] at h
    have h2 : cs2 = alset cs leaf (ids.headD "", Catalog.mk []) :=
      (Except.ok.inj h).symm
    subst h2
    exact ⟨cs, rfl, rfl⟩
  | cons seg rest ih =>
    intro leaf ids cs cs2 h
    rcases hf : alfind cs seg with _ | ⟨aid, child⟩
    · simp only [insertGo, hf, Bool.false_eq_true, if_false] at h
      cases h
    · rcases hi : insertGo false ids rest leaf child.children with ⟨e3, cs3⟩ | cs3
      · simp only [insertGo, hf, hi] at h
        exact Except.noConfusion h
      · simp only [insertGo, hf, hi] at h
        have h2 : cs2 = alset cs seg (aid, Catalog.mk cs3) :=
          (Except.ok.inj h).symm
        subst h2
        obtain ⟨dest, hd1, hd2⟩ := ih leaf ids child.children cs3 hi
        refine ⟨dest, ?_, ?_⟩
        · simp only [follow, hf]
          exact hd1
        · simp only [follow, alfind_alset_self]
          exact hd2

theorem insertGo_ok_of_follow : ∀ (path : List String) (leaf : String)
    (ids : List String) (cs dest : List (String × String × Catalog)),
    follow cs path = some dest →
    ∃ cs2, insertGo false ids path leaf cs = .ok cs2 := by
  intro path
  induction path with
  | nil =>
    intro leaf ids cs dest _
    exact ⟨_, insertGo_nil false ids leaf cs⟩
  | cons seg rest ih =>
    intro leaf ids cs dest h
    rcases hf : alfind cs seg with _ | ⟨aid, child⟩
    · simp only [follow, hf] at h
      cases h
    · simp only [follow, hf] at h
      obtain ⟨cs3, h3⟩ := ih leaf ids child.children dest h
      refine ⟨alset cs seg (aid, Catalog.mk cs3), ?_⟩
      simp [insertGo, hf, h3]

/-! Nonemptiness preservation (last-element accesses stay in bounds). -/

theorem done_nonempty {tl : Log} (now : Timestamp) (hne : allNonempty tl) :
    allNonempty (doneLog tl now) := by
  rcases hmax : maxKey tl with _ | day
  · have htl : tl = [] := (maxKey_none_iff tl).mp hmax
    subst htl
    have hd : doneLog [] now = [] := by
      unfold doneLog
      rw [done_nil]
    rw [hd]
    intro p hp
    cases hp
  · obtain ⟨es, hfind⟩ := alfind_isSome_of_mem_keys (maxKey_mem hmax)
    have hmem := alfind_mem hfind
    have hesne : es ≠ [] := hne _ hmem
    rcases hl : es.getLast? with _ | la
    · rw [List.getLast?_eq_none_iff] at hl
      exact absurd hl hesne
    · have hdone := done_unfold now hmax hfind hl
      have hne1 : allNonempty
          (alset tl day (es.dropLast ++ [{ la with end? := some now }])) := by
        intro p hp
        rcases mem_alset hp with h1 | h1
        · rw [h1]
          simp
        · exact hne p h1
      by_cases hskew : Date.lt now.date la.start.date
      · have hd : doneLog tl now =
            alset tl day (es.dropLast ++ [{ la with end? := some now }]) := by
          unfold doneLog
          rw [hdone, if_pos hskew]
        rw [hd]
        exact hne1
      · by_cases hdiff : la.start.date ≠ now.date
        · have hd : doneLog tl now =
              fillDays (alset tl day (es.dropLast ++ [{ la with end? := some now }]))
                { la with end? := some now } now
                (((now.date.d : Int) - (la.start.date.d : Int)).toNat) := by
            unfold doneLog
            rw [hdone, if_neg hskew, if_pos hdiff]
          rw [hd]
          refine @bucketsP_fillDays (fun _ es => es ≠ []) _ _ now _
            (fun p hp => hne1 p hp) ?_
          intro d2 _
          simp
        · have hd : doneLog tl now =
              alset tl day (es.dropLast ++ [{ la with end? := some now }]) := by
            unfold doneLog
            rw [hdone, if_neg hskew, if_neg hdiff]
          rw [hd]
          exact hne1

theorem start_nonempty {t : TL} (a : String) (now : Timestamp)
    (hne : allNonempty t.timeline) : allNonempty (startTL t a now).timeline := by
  rcases hid : activity_id t.activities a with _ | aid
  · rw [startTL_of_error (start_unknown now hid)]
    exact hne
  · rcases hca : current_activity t.timeline with er | cur
    · exact absurd hca (ca_ne_indexError hne er)
    · have happend : ∀ tl2 : Log, allNonempty tl2 → allNonempty
          (alset tl2 now.date ((alfind tl2 now.date).getD [] ++
            [⟨aid, a, now, none, false⟩])) := by
        intro tl2 h2 p hp
        rcases mem_alset hp with h1 | h1
        · rw [h1]
          simp
        · exact h2 p h1
      cases cur with
      | none =>
        rw [startTL_of_ok (start_none now hid hca)]
        dsimp only
        exact happend _ hne
      | some e =>
        rcases hdn : done t.timeline now with ⟨er, tl2⟩ | ⟨res, tl2⟩
        · have hdl : doneLog t.timeline now = tl2 := by
            unfold doneLog
            rw [hdn]
          rw [startTL_of_error (start_some_error now hid hca hdn)]
          dsimp only
          exact hdl ▸ done_nonempty now hne
        · have hdl : doneLog t.timeline now = tl2 := by
            unfold doneLog
            rw [hdn]
          rw [startTL_of_ok (start_some_ok now hid hca hdn)]
          dsimp only
          exact happend tl2 (hdl ▸ done_nonempty now hne)

theorem done_no_indexError {tl : Log} (now : Timestamp) (hne : allNonempty tl)
    (htl : tl ≠ []) : ∀ tl2, done tl now ≠ .error (.indexError, tl2) := by
  intro tl2
  rcases hmax : maxKey tl with _ | day
  · exact absurd ((maxKey_none_iff tl).mp hmax) htl
  · obtain ⟨es, hfind⟩ := alfind_isSome_of_mem_keys (maxKey_mem hmax)
    have hmem := alfind_mem hfind
    have hesne : es ≠ [] := hne _ hmem
    rcases hl : es.getLast? with _ | la
    · rw [List.getLast?_eq_none_iff] at hl
      exact absurd hl hesne
    · rw [done_unfold now hmax hfind hl]
      by_cases hskew : Date.lt now.date la.start.date
      · simp [hskew]
      · simp [hskew]

/-! Claim theorems. -/

/-- C1: the spec claims that finishing with no open interval fails cleanly
with a NothingToFinish typed failure, and in particular neither crashes nor
silently no-ops nor mutates any existing interval. The code has no such
check: on a log whose last interval is already closed, `Timeline.done`
returns normally and overwrites that interval's end timestamp (here 10:00
becomes 11:00); on an empty log it raises a bare `IndexError`; and the CLI
guard (cli.py:55-56) makes `--done` a silent no-op instead of reporting a
failure. This theorem evaluates the translated code at those inputs. -/
theorem C1_done_without_open_interval :
    done [(⟨2024, 1, 10⟩, [⟨"idA", "A", ⟨⟨2024, 1, 10⟩, 540⟩,
        some ⟨⟨2024, 1, 10⟩, 600⟩, false⟩])] ⟨⟨2024, 1, 10⟩, 660⟩ =
      .ok ((⟨⟨2024, 1, 10⟩, 540⟩, ⟨⟨2024, 1, 10⟩, 660⟩, "A"),
        [(⟨2024, 1, 10⟩, [⟨"idA", "A", ⟨⟨2024, 1, 10⟩, 540⟩,
          some ⟨⟨2024, 1, 10⟩, 660⟩, false⟩])]) ∧
    done ([] : Log) ⟨⟨2024, 1, 10⟩, 660⟩ = .error (.indexError, []) ∧
    cli_done ⟨[(⟨2024, 1, 10⟩, [⟨"idA", "A", ⟨⟨2024, 1, 10⟩, 540⟩,
        some ⟨⟨2024, 1, 10⟩, 600⟩, false⟩])], .mk []⟩ ⟨⟨2024, 1, 10⟩, 660⟩ =
      ⟨[(⟨2024, 1, 10⟩, [⟨"idA", "A", ⟨⟨2024, 1, 10⟩, 540⟩,
        some ⟨⟨2024, 1, 10⟩, 600⟩, false⟩])], .mk []⟩ :=
  ⟨rfl, rfl, rfl⟩

/-- C2 (amended): for every sequence of start/finish operations issued with
a monotone well-formed clock, starting from the empty log, at most one
interval of the whole log is open, and an open interval is always the last
entry of the chronologically last day. The monotone-clock hypothesis is
necessary: see the counterexample with a clock that moves backward. -/
theorem C2_at_most_one_open_monotone (cat : Catalog) (b0 : Date)
    (ops : List Op) (h : ClockOK b0 ops) :
    openCount (run ⟨[], cat⟩ ops).timeline ≤ 1 ∧
      openIsLast (run ⟨[], cat⟩ ops).timeline := by
  obtain ⟨b2, hI⟩ := run_inv ops ⟨[], cat⟩ b0 (LogInv_nil b0) h
  exact ⟨openCount_shape hI.2.1 hI.2.2.2.2, openIsLast_shape hI.2.1 hI.2.2.2.2⟩

/-- C2 witness: a concrete monotone run satisfying the hypotheses of
`C2_at_most_one_open_monotone`. -/
theorem C2_at_most_one_open_monotone_witness :
    ClockOK ⟨2024, 1, 1⟩ [Op.startOp "A" ⟨⟨2024, 5, 1⟩, 0⟩,
        Op.finishOp ⟨⟨2024, 5, 1⟩, 30⟩, Op.startOp "B" ⟨⟨2024, 5, 2⟩, 0⟩] ∧
      (openCount (run ⟨[], Catalog.mk [("A", "ia", .mk []), ("B", "ib", .mk [])]⟩
          [Op.startOp "A" ⟨⟨2024, 5, 1⟩, 0⟩, Op.finishOp ⟨⟨2024, 5, 1⟩, 30⟩,
           Op.startOp "B" ⟨⟨2024, 5, 2⟩, 0⟩]).timeline ≤ 1 ∧
        openIsLast (run ⟨[], Catalog.mk [("A", "ia", .mk []), ("B", "ib", .mk [])]⟩
          [Op.startOp "A" ⟨⟨2024, 5, 1⟩, 0⟩, Op.finishOp ⟨⟨2024, 5, 1⟩, 30⟩,
           Op.startOp "B" ⟨⟨2024, 5, 2⟩, 0⟩]).timeline) :=
  ⟨by decide, C2_at_most_one_open_monotone
    (Catalog.mk [("A", "ia", .mk []), ("B", "ib", .mk [])]) ⟨2024, 1, 1⟩
    [Op.startOp "A" ⟨⟨2024, 5, 1⟩, 0⟩, Op.finishOp ⟨⟨2024, 5, 1⟩, 30⟩,
     Op.startOp "B" ⟨⟨2024, 5, 2⟩, 0⟩] (by decide)⟩

/-- C2 counterexample: with a clock that moves backward, a start-finish-
start-start sequence leaves two intervals of the log open at once, so the
claim as stated (for every sequence of operations, at most one open
interval) is false of the code. After `start A` and `finish` on 2024-05-10,
`start B` at the earlier date 2024-05-01 appends an open interval to a
non-maximal day; `current_activity` then only inspects the last entry of
2024-05-10, which is closed, so `start C` does not close B and opens a
second interval. -/
theorem C2_backward_clock_two_open :
    openCount (run ⟨[], Catalog.mk [("A", "ia", .mk []), ("B", "ib", .mk []),
        ("C", "ic", .mk [])]⟩
      [Op.startOp "A" ⟨⟨2024, 5, 10⟩, 0⟩, Op.finishOp ⟨⟨2024, 5, 10⟩, 30⟩,
       Op.startOp "B" ⟨⟨2024, 5, 1⟩, 0⟩,
       Op.startOp "C" ⟨⟨2024, 5, 2⟩, 0⟩]).timeline = 2 := by decide

/-- C3 (amended): failed operations leave no observable partial mutation,
except the clock-skew failure of `Timeline.done`, which assigns the open
interval's end timestamp (timeline.py:148) before the date check
(timeline.py:151), so when the ClockSkew error escapes, the end timestamp
HAS been set. In detail: (1) `start` on an unknown activity raises with the
state untouched; (2) every failure of `new_activity` (malformed path, empty
segment list, missing ancestor) leaves the catalog exactly as it was; (3)
the clock-skew failure raises with the last interval's end set to `now`. -/
theorem C3_failed_ops_amended :
    (∀ (t : TL) (a : String) (now : Timestamp),
      activity_id t.activities a = none →
      start t a now = .error
        (.timelineError ("The activity " ++ a ++ " does not exist."), t)) ∧
    (∀ (cat : Catalog) (act : String) (parents : Bool) (ids : List String)
      (e : Err) (c2 : Catalog),
      new_activity cat act parents ids = .error (e, c2) → c2 = cat) ∧
    (∀ (tl : Log) (now : Timestamp) (day : Date) (pre : Bucket) (e : Entry),
      maxKey tl = some day → alfind tl day = some (pre ++ [e]) →
      Date.lt now.date e.start.date →
      done tl now = .error (.timelineError skewMsg,
        alset tl day (pre ++ [{ e with end? := some now }]))) := by
  refine ⟨?_, ?_, ?_⟩
  · intro t a now h
    exact start_unknown now h
  · intro cat act parents ids e c2 h
    unfold new_activity at h
    dsimp only at h
    split at h
    · injection h with h1
      injection h1 with h2 h3
      exact h3.symm
    · split at h
      · injection h with h1
        injection h1 with h2 h3
        exact h3.symm
      · rcases hi : insertGo parents ids ((pySplit act '/').drop 1).dropLast
            _ cat.children with ⟨e4, cs4⟩ | cs4
        · rw [hi] at h
          injection h with h1
          injection h1 with h2 h3
          cases parents with
          | true =>
            obtain ⟨cs5, h5⟩ := insertGo_parents_ok
              ((pySplit act '/').drop 1).dropLast _ ids cat.children
            rw [h5] at hi
            cases hi
          | false =>
            have h4 : cs4 = cat.children :=
              insertGo_error_eq _ _ ids cat.children e4 cs4 hi
            rw [← h3, h4, Catalog.mk_children]
        · rw [hi] at h
          cases h
  · intro tl now day pre e hmax hfind hskew
    have hl : (pre ++ [e]).getLast? = some e := List.getLast?_concat pre
    rw [done_unfold now hmax hfind hl, if_pos hskew, List.dropLast_concat]

/-- C3 witness: concrete instances discharging each hypothesis of
`C3_failed_ops_amended`. -/
theorem C3_failed_ops_amended_witness :
    start ⟨[], Catalog.mk [("A", "ia", .mk [])]⟩ "Z" ⟨⟨2024, 1, 10⟩, 0⟩ =
      .error (.timelineError ("The activity " ++ "Z" ++ " does not exist."),
        ⟨[], Catalog.mk [("A", "ia", .mk [])]⟩) ∧
    Catalog.mk [("A", "ia", Catalog.mk [])] =
      Catalog.mk [("A", "ia", Catalog.mk [])] ∧
    done [(⟨2024, 1, 12⟩, [⟨"idA", "A", ⟨⟨2024, 1, 12⟩, 0⟩, none, false⟩])]
        ⟨⟨2024, 1, 10⟩, 0⟩ =
      .error (.timelineError skewMsg,
        alset [(⟨2024, 1, 12⟩, [⟨"idA", "A", ⟨⟨2024, 1, 12⟩, 0⟩, none, false⟩])]
          ⟨2024, 1, 12⟩
          ([] ++ [⟨"idA", "A", ⟨⟨2024, 1, 12⟩, 0⟩,
            some ⟨⟨2024, 1, 10⟩, 0⟩, false⟩])) := by
  refine ⟨?_, ?_, ?_⟩
  · exact C3_failed_ops_amended.1 ⟨[], Catalog.mk [("A", "ia", .mk [])]⟩ "Z"
      ⟨⟨2024, 1, 10⟩, 0⟩ rfl
  · exact C3_failed_ops_amended.2.1 (Catalog.mk [("A", "ia", .mk [])]) "/x/y"
      false ["u"] (.valueError ("the activity " ++ "x" ++ " does not exist"))
      (Catalog.mk [("A", "ia", .mk [])]) rfl
  · exact C3_failed_ops_amended.2.2
      [(⟨2024, 1, 12⟩, [⟨"idA", "A", ⟨⟨2024, 1, 12⟩, 0⟩, none, false⟩])]
      ⟨⟨2024, 1, 10⟩, 0⟩ ⟨2024, 1, 12⟩ []
      ⟨"idA", "A", ⟨⟨2024, 1, 12⟩, 0⟩, none, false⟩ rfl rfl (by decide)

/-- C3 counterexample: the claim states that after a clock-skew failure the
open interval's end timestamp has not been set. In the code the assignment
precedes the check: finishing at 2024-01-10 an interval started 2024-01-12
raises the clock-skew `TimelineError`, yet the carried state shows the
interval's end set to the new timestamp, different from the pre-call
state. -/
theorem C3_clock_skew_sets_end :
    done [(⟨2024, 1, 12⟩, [⟨"idB", "B", ⟨⟨2024, 1, 12⟩, 5⟩, none, false⟩])]
        ⟨⟨2024, 1, 10⟩, 7⟩ =
      .error (.timelineError skewMsg,
        [(⟨2024, 1, 12⟩, [⟨"idB", "B", ⟨⟨2024, 1, 12⟩, 5⟩,
          some ⟨⟨2024, 1, 10⟩, 7⟩, false⟩])]) ∧
    ([(⟨2024, 1, 12⟩, [⟨"idB", "B", ⟨⟨2024, 1, 12⟩, 5⟩,
      some ⟨⟨2024, 1, 10⟩, 7⟩, false⟩])] : Log) ≠
      [(⟨2024, 1, 12⟩, [⟨"idB", "B", ⟨⟨2024, 1, 12⟩, 5⟩, none, false⟩])] :=
  ⟨rfl, by decide⟩

/-- C4: when `done` closes an interval whose start date differs from the
end date, then for each offset k from 1 to (end day-of-month minus start
day-of-month) inclusive, the bucket of the day k days after the start day
is set to the continuation fragment carrying the same id and name, the
original start timestamp, the final end timestamp, and the continuation
marker, while the start-day bucket keeps its entries with the now-closed
interval last. -/
theorem C4_multiday_split (tl : Log) (now : Timestamp) (day : Date)
    (pre : Bucket) (e : Entry) (hmax : maxKey tl = some day)
    (hfind : alfind tl day = some (pre ++ [e])) (_hopen : e.end? = none)
    (hsd : e.start.date = day) (hdiff : e.start.date ≠ now.date)
    (hskew : ¬ Date.lt now.date e.start.date) :
    ∃ tl2, done tl now = .ok ((e.start, now, e.name), tl2) ∧
      (∀ k : Nat, 1 ≤ k →
        (k : Int) ≤ (now.date.d : Int) - (e.start.date.d : Int) →
        alfind tl2 (Date.addDays e.start.date k) =
          some [⟨e.id, e.name, e.start, some now, true⟩]) ∧
      alfind tl2 day = some (pre ++ [{ e with end? := some now }]) := by
  have hl : (pre ++ [e]).getLast? = some e := List.getLast?_concat pre
  refine ⟨fillDays (alset tl day (pre ++ [{ e with end? := some now }]))
    { e with end? := some now } now
    (((now.date.d : Int) - (e.start.date.d : Int)).toNat), ?_, ?_, ?_⟩
  · rw [done_unfold now hmax hfind hl, if_neg hskew, if_pos hdiff,
      List.dropLast_concat]
  · intro k h1 h2
    have hmem : Date.addDays e.start.date k ∈
        (List.range' 1 (((now.date.d : Int) - (e.start.date.d : Int)).toNat)).map
          (Date.addDays e.start.date) := by
      refine List.mem_map.mpr ⟨k, ?_, rfl⟩
      rw [List.mem_range'_1]
      omega
    rw [alfind_fillDays, if_pos hmem]
    rfl
  · have hnot : ¬ (day ∈
        (List.range' 1 (((now.date.d : Int) - (e.start.date.d : Int)).toNat)).map
          (Date.addDays e.start.date)) := by
      intro hmem
      rcases List.mem_map.mp hmem with ⟨k, hk, hdk⟩
      rw [List.mem_range'_1] at hk
      obtain ⟨k0, rfl⟩ : ∃ k0, k = k0 + 1 := ⟨k - 1, by omega⟩
      have hlt := dlt_addDays e.start.date k0
      rw [hdk, hsd] at hlt
      exact dlt_irrefl day hlt
    rw [alfind_fillDays, if_neg hnot, alfind_alset_self]

/-- C4 witness: the example from the spec, an interval started
2024-01-10T23:50 and finished 2024-01-12T00:10 fills the 11th and 12th with
continuation fragments and keeps the closed interval on the 10th. -/
theorem C4_multiday_split_witness :
    ∃ tl2, done [(⟨2024, 1, 10⟩,
        [⟨"idA", "A", ⟨⟨2024, 1, 10⟩, 1430⟩, none, false⟩])]
        ⟨⟨2024, 1, 12⟩, 10⟩ =
        .ok ((⟨⟨2024, 1, 10⟩, 1430⟩, ⟨⟨2024, 1, 12⟩, 10⟩, "A"), tl2) ∧
      alfind tl2 ⟨2024, 1, 11⟩ =
        some [⟨"idA", "A", ⟨⟨2024, 1, 10⟩, 1430⟩,
          some ⟨⟨2024, 1, 12⟩, 10⟩, true⟩] ∧
      alfind tl2 ⟨2024, 1, 12⟩ =
        some [⟨"idA", "A", ⟨⟨2024, 1, 10⟩, 1430⟩,
          some ⟨⟨2024, 1, 12⟩, 10⟩, true⟩] ∧
      alfind tl2 ⟨2024, 1, 10⟩ =
        some [⟨"idA", "A", ⟨⟨2024, 1, 10⟩, 1430⟩,
          some ⟨⟨2024, 1, 12⟩, 10⟩, false⟩] := by
  obtain ⟨tl2, hok, hfill, hstart⟩ := C4_multiday_split
    [(⟨2024, 1, 10⟩, [⟨"idA", "A", ⟨⟨2024, 1, 10⟩, 1430⟩, none, false⟩])]
    ⟨⟨2024, 1, 12⟩, 10⟩ ⟨2024, 1, 10⟩ []
    ⟨"idA", "A", ⟨⟨2024, 1, 10⟩, 1430⟩, none, false⟩
    rfl rfl rfl rfl (by decide) (by decide)
  refine ⟨tl2, hok, ?_, ?_, ?_⟩
  · have h := hfill 1 (by omega) (by decide)
    rw [show Date.addDays ⟨2024, 1, 10⟩ 1 = ⟨2024, 1, 11⟩ from rfl] at h
    exact h
  · have h := hfill 2 (by omega) (by decide)
    rw [show Date.addDays ⟨2024, 1, 10⟩ 2 = ⟨2024, 1, 12⟩ from rfl] at h
    exact h
  · simpa using hstart

/-- C9: when `done` splits a multi-day interval, each filled day bucket
(offsets 1 to the day-of-month difference from the start day) is assigned
exactly the one continuation-fragment entry, discarding whatever the bucket
held before, while every bucket other than the one holding the finished
interval and the filled range is left unchanged. -/
theorem C9_fill_frame (tl : Log) (now : Timestamp) (day : Date) (pre : Bucket)
    (e : Entry) (hmax : maxKey tl = some day)
    (hfind : alfind tl day = some (pre ++ [e]))
    (hdiff : e.start.date ≠ now.date)
    (hskew : ¬ Date.lt now.date e.start.date) :
    ∃ tl2, done tl now = .ok ((e.start, now, e.name), tl2) ∧
      (∀ k : Nat, 1 ≤ k →
        (k : Int) ≤ (now.date.d : Int) - (e.start.date.d : Int) →
        alfind tl2 (Date.addDays e.start.date k) =
          some [⟨e.id, e.name, e.start, some now, true⟩]) ∧
      (∀ d2, d2 ≠ day →
        (∀ k : Nat, 1 ≤ k →
          (k : Int) ≤ (now.date.d : Int) - (e.start.date.d : Int) →
          d2 ≠ Date.addDays e.start.date k) →
        alfind tl2 d2 = alfind tl d2) := by
  have hl : (pre ++ [e]).getLast? = some e := List.getLast?_concat pre
  refine ⟨fillDays (alset tl day (pre ++ [{ e with end? := some now }]))
    { e with end? := some now } now
    (((now.date.d : Int) - (e.start.date.d : Int)).toNat), ?_, ?_, ?_⟩
  · rw [done_unfold now hmax hfind hl, if_neg hskew, if_pos hdiff,
      List.dropLast_concat]
  · intro k h1 h2
    have hmem : Date.addDays e.start.date k ∈
        (List.range' 1 (((now.date.d : Int) - (e.start.date.d : Int)).toNat)).map
          (Date.addDays e.start.date) := by
      refine List.mem_map.mpr ⟨k, ?_, rfl⟩
      rw [List.mem_range'_1]
      omega
    rw [alfind_fillDays, if_pos hmem]
    rfl
  · intro d2 hd2 hnotfill
    have hnot : ¬ (d2 ∈
        (List.range' 1 (((now.date.d : Int) - (e.start.date.d : Int)).toNat)).map
          (Date.addDays e.start.date)) := by
      intro hmem
      rcases List.mem_map.mp hmem with ⟨k, hk, hdk⟩
      rw [List.mem_range'_1] at hk
      refine hnotfill k (by omega) (by omega) ?_
      exact hdk.symm
    rw [alfind_fillDays, if_neg hnot, alfind_alset_ne tl day d2 _ hd2]

/-- C9 witness: finishing at 2024-01-12 an interval recorded with start
2024-01-10 as the last entry of the 12th fills the buckets of the 11th and
12th with exactly one fragment each; the bucket of the 11th previously held
an unrelated entry, which is discarded, while the bucket of the 10th is
untouched. -/
theorem C9_fill_frame_witness :
    ∃ tl2, done [(⟨2024, 1, 10⟩,
          [⟨"idX", "X", ⟨⟨2024, 1, 10⟩, 100⟩,
            some ⟨⟨2024, 1, 10⟩, 200⟩, false⟩]),
        (⟨2024, 1, 11⟩,
          [⟨"idY", "Y", ⟨⟨2024, 1, 11⟩, 100⟩,
            some ⟨⟨2024, 1, 11⟩, 200⟩, false⟩]),
        (⟨2024, 1, 12⟩,
          [⟨"idZ", "Z", ⟨⟨2024, 1, 10⟩, 300⟩, none, false⟩])]
        ⟨⟨2024, 1, 12⟩, 400⟩ =
        .ok ((⟨⟨2024, 1, 10⟩, 300⟩, ⟨⟨2024, 1, 12⟩, 400⟩, "Z"), tl2) ∧
      alfind tl2 ⟨2024, 1, 11⟩ =
        some [⟨"idZ", "Z", ⟨⟨2024, 1, 10⟩, 300⟩,
          some ⟨⟨2024, 1, 12⟩, 400⟩, true⟩] ∧
      alfind tl2 ⟨2024, 1, 10⟩ =
        some [⟨"idX", "X", ⟨⟨2024, 1, 10⟩, 100⟩,
          some ⟨⟨2024, 1, 10⟩, 200⟩, false⟩] := by
  obtain ⟨tl2, hok, hfill, hframe⟩ := C9_fill_frame
    [(⟨2024, 1, 10⟩,
        [⟨"idX", "X", ⟨⟨2024, 1, 10⟩, 100⟩,
          some ⟨⟨2024, 1, 10⟩, 200⟩, false⟩]),
      (⟨2024, 1, 11⟩,
        [⟨"idY", "Y", ⟨⟨2024, 1, 11⟩, 100⟩,
          some ⟨⟨2024, 1, 11⟩, 200⟩, false⟩]),
      (⟨2024, 1, 12⟩,
        [⟨"idZ", "Z", ⟨⟨2024, 1, 10⟩, 300⟩, none, false⟩])]
    ⟨⟨2024, 1, 12⟩, 400⟩ ⟨2024, 1, 12⟩ []
    ⟨"idZ", "Z", ⟨⟨2024, 1, 10⟩, 300⟩, none, false⟩
    rfl rfl (by decide) (by decide)
  refine ⟨tl2, hok, ?_, ?_⟩
  · have h := hfill 1 (by omega) (by decide)
    rw [show Date.addDays ⟨2024, 1, 10⟩ 1 = ⟨2024, 1, 11⟩ from rfl] at h
    exact h
  · have h := hframe ⟨2024, 1, 10⟩ (by decide) ?_
    · rw [h]
      rfl
    · intro k h1 h2
      dsimp only at h2
      have hk2 : k ≤ 2 := by omega
      interval_cases k
      · decide
      · decide

/-- C5: calling `start` on a catalogued activity A while an interval for B
is open produces, as a side effect, a completed B interval whose end
timestamp is the same instant `now` recorded as the start timestamp of the
newly opened A interval: the returned completed triple ends at `now`, the
closed B entry (end = now) is in the log, and the new open A entry
(start = now) is the last entry of the bucket of now's day. -/
theorem C5_start_closes_open (cat : Catalog) (tl : Log) (A aid : String)
    (day : Date) (pre : Bucket) (eB : Entry) (now : Timestamp)
    (hid : activity_id cat A = some aid) (hmax : maxKey tl = some day)
    (hfind : alfind tl day = some (pre ++ [eB])) (hopen : eB.end? = none)
    (hsd : eB.start.date = day) (hskew : ¬ Date.lt now.date eB.start.date) :
    ∃ t3 : TL, start ⟨tl, cat⟩ A now =
        .ok (some (eB.start, now, eB.name), t3) ∧
      (∃ es2, alfind t3.timeline day = some es2 ∧
        { eB with end? := some now } ∈ es2) ∧
      (∃ es3, alfind t3.timeline now.date = some es3 ∧
        es3.getLast? = some ⟨aid, A, now, none, false⟩) := by
  have hl : (pre ++ [eB]).getLast? = some eB := List.getLast?_concat pre
  have hca : current_activity tl = .ok (some eB) := ca_of_open hmax hfind hopen
  have hdone := done_unfold now hmax hfind hl
  rw [if_neg hskew, List.dropLast_concat] at hdone
  by_cases hdiff : eB.start.date ≠ now.date
  · rw [if_pos hdiff] at hdone
    have hstart := @start_some_ok ⟨tl, cat⟩ A aid eB (eB.start, now, eB.name)
      (fillDays (alset tl day (pre ++ [{ eB with end? := some now }]))
        { eB with end? := some now } now
        (((now.date.d : Int) - (eB.start.date.d : Int)).toNat)) now hid hca hdone
    refine ⟨_, hstart, ?_, ?_⟩
    · dsimp only
      have hdne : day ≠ now.date := fun he => hdiff (hsd.trans he)
      rw [alfind_alset_ne _ now.date day _ hdne]
      have hnot : ¬ (day ∈
          (List.range' 1
            (((now.date.d : Int) - (eB.start.date.d : Int)).toNat)).map
            (Date.addDays eB.start.date)) := by
        intro hmem
        rcases List.mem_map.mp hmem with ⟨k, hk, hdk⟩
        rw [List.mem_range'_1] at hk
        obtain ⟨k0, rfl⟩ : ∃ k0, k = k0 + 1 := ⟨k - 1, by omega⟩
        have hlt := dlt_addDays eB.start.date k0
        rw [hdk, hsd] at hlt
        exact dlt_irrefl day hlt
      rw [alfind_fillDays, if_neg hnot, alfind_alset_self]
      exact ⟨pre ++ [{ eB with end? := some now }], rfl,
        List.mem_append_right pre (by simp)⟩
    · dsimp only
      rw [alfind_alset_self]
      exact ⟨_, rfl, List.getLast?_concat _⟩
  · push_neg at hdiff
    rw [if_neg (not_not_intro hdiff)] at hdone
    have hstart := @start_some_ok ⟨tl, cat⟩ A aid eB (eB.start, now, eB.name)
      (alset tl day (pre ++ [{ eB with end? := some now }])) now hid hca hdone
    have hdn : day = now.date := hsd.symm.trans hdiff
    have hb2 : ((alfind (alset tl day (pre ++ [{ eB with end? := some now }]))
        day).getD []) = pre ++ [{ eB with end? := some now }] := by
      rw [alfind_alset_self]
      rfl
    refine ⟨_, hstart, ?_, ?_⟩
    · dsimp only
      rw [← hdn, alfind_alset_self, hb2]
      exact ⟨_, rfl,
        List.mem_append_left _ (List.mem_append_right pre (by simp))⟩
    · dsimp only
      rw [← hdn, alfind_alset_self, hb2]
      exact ⟨_, rfl, List.getLast?_concat _⟩

/-- C5 witness: starting A at 10:00 while B (started 09:00 the same day) is
open closes B at 10:00 and opens A at 10:00. -/
theorem C5_start_closes_open_witness :
    ∃ t3 : TL, start ⟨[(⟨2024, 1, 10⟩,
        [⟨"ib", "B", ⟨⟨2024, 1, 10⟩, 540⟩, none, false⟩])],
        Catalog.mk [("A", "ia", .mk []), ("B", "ib", .mk [])]⟩ "A"
        ⟨⟨2024, 1, 10⟩, 600⟩ =
        .ok (some (⟨⟨2024, 1, 10⟩, 540⟩, ⟨⟨2024, 1, 10⟩, 600⟩, "B"), t3) ∧
      (∃ es2, alfind t3.timeline ⟨2024, 1, 10⟩ = some es2 ∧
        (⟨"ib", "B", ⟨⟨2024, 1, 10⟩, 540⟩,
          some ⟨⟨2024, 1, 10⟩, 600⟩, false⟩ : Entry) ∈ es2) ∧
      (∃ es3, alfind t3.timeline ⟨2024, 1, 10⟩ = some es3 ∧
        es3.getLast? =
          some ⟨"ia", "A", ⟨⟨2024, 1, 10⟩, 600⟩, none, false⟩) :=
  C5_start_closes_open
    (Catalog.mk [("A", "ia", .mk []), ("B", "ib", .mk [])])
    [(⟨2024, 1, 10⟩, [⟨"ib", "B", ⟨⟨2024, 1, 10⟩, 540⟩, none, false⟩])]
    "A" "ia" ⟨2024, 1, 10⟩ []
    ⟨"ib", "B", ⟨⟨2024, 1, 10⟩, 540⟩, none, false⟩ ⟨⟨2024, 1, 10⟩, 600⟩
    rfl rfl rfl rfl rfl (by decide)

/-- C6 (amended): for every log state and every n >= 1, `recent(n)` returns
exactly min(n, total) non-fragment intervals, where total is the number of
non-fragment entries of the log — hence at most n, fewer than n only when
the log is exhausted — and never includes a continuation-fragment entry.
The claim's range n >= 0 is amended to n >= 1: the counterexample shows
that `recent(0)` returns every non-fragment entry of the log, because the
counter is decremented before the `== 0` test and skips zero. -/
theorem C6_recent_bounded (tl : Log) (n : Int) (h : 1 ≤ n) :
    (totalNF (recent_activities tl n) : Int) = min n (totalNF tl) ∧
    ∀ p ∈ recent_activities tl n, ∀ e ∈ p.2, e.previous = false := by
  obtain ⟨h1, h2, h3, h4⟩ := recentGo_spec (sortDesc tl) n
  have hperm : totalNF (sortDesc tl) = totalNF tl := by
    unfold totalNF
    exact ((sortDesc_perm tl).map _).sum_eq
  constructor
  · have h5 := h4 h
    rw [hperm] at h5
    exact h5
  · exact h1

/-- C6 witness: over a log with two non-fragment entries and one fragment,
`recent(2)` returns exactly two non-fragment entries and no fragment. -/
theorem C6_recent_bounded_witness :
    (totalNF (recent_activities [(⟨2024, 1, 10⟩,
        [⟨"ia", "A", ⟨⟨2024, 1, 10⟩, 60⟩, some ⟨⟨2024, 1, 10⟩, 90⟩, false⟩]),
      (⟨2024, 1, 11⟩,
        [⟨"ia", "A", ⟨⟨2024, 1, 10⟩, 60⟩, some ⟨⟨2024, 1, 11⟩, 30⟩, true⟩,
         ⟨"ib", "B", ⟨⟨2024, 1, 11⟩, 40⟩, some ⟨⟨2024, 1, 11⟩, 50⟩, false⟩])] 2) :
      Int) =
      min 2 (totalNF [(⟨2024, 1, 10⟩,
        [⟨"ia", "A", ⟨⟨2024, 1, 10⟩, 60⟩, some ⟨⟨2024, 1, 10⟩, 90⟩, false⟩]),
      (⟨2024, 1, 11⟩,
        [⟨"ia", "A", ⟨⟨2024, 1, 10⟩, 60⟩, some ⟨⟨2024, 1, 11⟩, 30⟩, true⟩,
         ⟨"ib", "B", ⟨⟨2024, 1, 11⟩, 40⟩, some ⟨⟨2024, 1, 11⟩, 50⟩, false⟩])]) ∧
    ∀ p ∈ recent_activities [(⟨2024, 1, 10⟩,
        [⟨"ia", "A", ⟨⟨2024, 1, 10⟩, 60⟩, some ⟨⟨2024, 1, 10⟩, 90⟩, false⟩]),
      (⟨2024, 1, 11⟩,
        [⟨"ia", "A", ⟨⟨2024, 1, 10⟩, 60⟩, some ⟨⟨2024, 1, 11⟩, 30⟩, true⟩,
         ⟨"ib", "B", ⟨⟨2024, 1, 11⟩, 40⟩, some ⟨⟨2024, 1, 11⟩, 50⟩, false⟩])] 2,
      ∀ e ∈ p.2, e.previous = false :=
  C6_recent_bounded
    [(⟨2024, 1, 10⟩,
        [⟨"ia", "A", ⟨⟨2024, 1, 10⟩, 60⟩, some ⟨⟨2024, 1, 10⟩, 90⟩, false⟩]),
      (⟨2024, 1, 11⟩,
        [⟨"ia", "A", ⟨⟨2024, 1, 10⟩, 60⟩, some ⟨⟨2024, 1, 11⟩, 30⟩, true⟩,
         ⟨"ib", "B", ⟨⟨2024, 1, 11⟩, 40⟩, some ⟨⟨2024, 1, 11⟩, 50⟩, false⟩])]
    2 (by decide)

/-- C6 counterexample: the claim includes n = 0, but `recent(0)` does not
return at most zero intervals: the Python counter is decremented first and
compared to zero after, so from 0 it goes negative and never triggers the
early return; the whole log is returned. Here `recent(0)` on a log with one
non-fragment entry returns that entry. -/
theorem C6_recent_zero_returns_all :
    recent_activities [(⟨2024, 1, 10⟩,
        [⟨"ia", "A", ⟨⟨2024, 1, 10⟩, 60⟩, some ⟨⟨2024, 1, 10⟩, 90⟩, false⟩])]
        0 =
      [(⟨2024, 1, 10⟩,
        [⟨"ia", "A", ⟨⟨2024, 1, 10⟩, 60⟩, some ⟨⟨2024, 1, 10⟩, 90⟩, false⟩])] ∧
    totalNF (recent_activities [(⟨2024, 1, 10⟩,
        [⟨"ia", "A", ⟨⟨2024, 1, 10⟩, 60⟩, some ⟨⟨2024, 1, 10⟩, 90⟩, false⟩])]
        0) = 1 :=
  ⟨rfl, rfl⟩

/-- C7 (amended): the mapping returned by `recent(n)` lists the NEWEST
included day first and the oldest last (the reverse of the claimed order:
days are scanned most recent first and inserted into the result dict in
scan order), and within each day the intervals appear in their original
oldest-first order (each returned day's list is a subsequence of that day's
bucket). -/
theorem C7_recent_order (tl : Log) (n : Int) (hnd : (lkeys tl).Nodup) :
    List.Pairwise (fun a b => Date.lt b a) (lkeys (recent_activities tl n)) ∧
    ∀ p ∈ recent_activities tl n, ∃ es0, alfind tl p.1 = some es0 ∧
      p.2.Sublist es0 := by
  obtain ⟨h1, h2, h3, h4⟩ := recentGo_spec (sortDesc tl) n
  constructor
  · have hsorted := sortDesc_sorted tl
    unfold SortedD at hsorted
    have hkeysle : List.Pairwise (fun a b => Date.le b a) (lkeys (sortDesc tl)) := by
      unfold lkeys
      exact List.Pairwise.map (fun p : Date × Bucket => p.1) (fun a b h => h) hsorted
    have hkeynd : (lkeys (sortDesc tl)).Nodup := by
      unfold lkeys
      unfold lkeys at hnd
      exact (((sortDesc_perm tl).map (fun p => p.1)).nodup_iff).mpr hnd
    have hstrict : List.Pairwise (fun a b => Date.lt b a) (lkeys (sortDesc tl)) := by
      have hand := hkeysle.and hkeynd
      exact hand.imp (fun hab => dlt_of_dle_of_ne hab.1 (fun he => hab.2 he.symm))
    exact hstrict.sublist h2
  · intro p hp
    obtain ⟨es0, hm, hs, _⟩ := h3 p hp
    exact ⟨es0, alfind_of_mem_nodup hnd ((sortDesc_perm tl).subset hm), hs⟩

/-- C7 witness: a two-day log with distinct keys. -/
theorem C7_recent_order_witness :
    List.Pairwise (fun a b => Date.lt b a)
      (lkeys (recent_activities [(⟨2024, 1, 10⟩,
          [⟨"ia", "A", ⟨⟨2024, 1, 10⟩, 60⟩, some ⟨⟨2024, 1, 10⟩, 90⟩, false⟩]),
        (⟨2024, 1, 11⟩,
          [⟨"ib", "B", ⟨⟨2024, 1, 11⟩, 40⟩,
            some ⟨⟨2024, 1, 11⟩, 50⟩, false⟩])] 2)) ∧
    ∀ p ∈ recent_activities [(⟨2024, 1, 10⟩,
          [⟨"ia", "A", ⟨⟨2024, 1, 10⟩, 60⟩, some ⟨⟨2024, 1, 10⟩, 90⟩, false⟩]),
        (⟨2024, 1, 11⟩,
          [⟨"ib", "B", ⟨⟨2024, 1, 11⟩, 40⟩,
            some ⟨⟨2024, 1, 11⟩, 50⟩, false⟩])] 2,
      ∃ es0, alfind [(⟨2024, 1, 10⟩,
          [⟨"ia", "A", ⟨⟨2024, 1, 10⟩, 60⟩, some ⟨⟨2024, 1, 10⟩, 90⟩, false⟩]),
        (⟨2024, 1, 11⟩,
          [⟨"ib", "B", ⟨⟨2024, 1, 11⟩, 40⟩,
            some ⟨⟨2024, 1, 11⟩, 50⟩, false⟩])] p.1 = some es0 ∧
        p.2.Sublist es0 :=
  C7_recent_order [(⟨2024, 1, 10⟩,
      [⟨"ia", "A", ⟨⟨2024, 1, 10⟩, 60⟩, some ⟨⟨2024, 1, 10⟩, 90⟩, false⟩]),
    (⟨2024, 1, 11⟩,
      [⟨"ib", "B", ⟨⟨2024, 1, 11⟩, 40⟩, some ⟨⟨2024, 1, 11⟩, 50⟩, false⟩])]
    2 (by decide)

/-- C7 counterexample: the claim says the oldest included day comes first
and the newest last. On a log holding entries for 2024-01-10 and
2024-01-11, `recent(2)` returns the buckets with the NEWER day (the 11th)
first, so the claimed order is the reverse of the actual one. -/
theorem C7_newest_day_first :
    recent_activities [(⟨2024, 1, 10⟩,
        [⟨"ia", "A", ⟨⟨2024, 1, 10⟩, 60⟩, some ⟨⟨2024, 1, 10⟩, 90⟩, false⟩]),
      (⟨2024, 1, 11⟩,
        [⟨"ib", "B", ⟨⟨2024, 1, 11⟩, 40⟩,
          some ⟨⟨2024, 1, 11⟩, 50⟩, false⟩])] 2 =
      [(⟨2024, 1, 11⟩,
        [⟨"ib", "B", ⟨⟨2024, 1, 11⟩, 40⟩, some ⟨⟨2024, 1, 11⟩, 50⟩, false⟩]),
       (⟨2024, 1, 10⟩,
        [⟨"ia", "A", ⟨⟨2024, 1, 10⟩, 60⟩, some ⟨⟨2024, 1, 10⟩, 90⟩, false⟩])] ∧
    Date.lt ⟨2024, 1, 10⟩ ⟨2024, 1, 11⟩ :=
  ⟨rfl, by decide⟩

/-- C8 (amended): creating an activity whose leaf name duplicates an
existing sibling does NOT leave the existing entry untouched with both
children present: the plain dict assignment at timeline.py:236 REBINDS the
leaf name to a fresh identifier with an empty subtree, so the previous
binding and its whole subtree are lost. Other siblings of the destination
node are unaffected, and the operation succeeds without error. -/
theorem C8_insert_replaces_sibling (cat : Catalog) (activity : String)
    (path : List String) (leaf : String) (ids : List String)
    (dest : List (String × String × Catalog)) (oldId : String)
    (oldChild : Catalog)
    (hsegs : (pySplit activity '/').drop 1 = path ++ [leaf])
    (hnoe : (path ++ [leaf]).contains "" = false)
    (hdest : follow cat.children path = some dest)
    (_hprev : alfind dest leaf = some (oldId, oldChild)) :
    ∃ cs2, new_activity cat activity false ids = .ok (.mk cs2) ∧
      follow cs2 path = some (alset dest leaf (ids.headD "", Catalog.mk [])) ∧
      alfind (alset dest leaf (ids.headD "", Catalog.mk [])) leaf =
        some (ids.headD "", Catalog.mk []) ∧
      ∀ s, s ≠ leaf →
        alfind (alset dest leaf (ids.headD "", Catalog.mk [])) s =
          alfind dest s := by
  obtain ⟨cs2, hok⟩ := insertGo_ok_of_follow path leaf ids cat.children dest hdest
  obtain ⟨dest2, hd1, hd2⟩ := insertGo_follow path leaf ids cat.children cs2 hok
  have hdd : dest = dest2 := by
    rw [hdest] at hd1
    exact Option.some.inj hd1
  subst hdd
  refine ⟨cs2, ?_, hd2, alfind_alset_self dest leaf _, ?_⟩
  · unfold new_activity
    dsimp only
    rw [hsegs]
    simp only [hnoe, Bool.false_eq_true, if_false, List.getLast?_concat,
      List.dropLast_concat, hok]
  · intro s hs
    exact alfind_alset_ne dest leaf s _ hs

/-- C8 witness: inserting `/w/x` into a catalog where node `w` already has
children `x` and `y` succeeds, rebinds `x` to the fresh identifier with an
empty subtree, and leaves sibling `y` unchanged. -/
theorem C8_insert_replaces_sibling_witness :
    ∃ cs2, new_activity
        (Catalog.mk [("w", "i0", Catalog.mk
          [("x", "i1", Catalog.mk []), ("y", "i2", Catalog.mk [])])])
        "/w/x" false ["f1"] = .ok (.mk cs2) ∧
      follow cs2 ["w"] = some (alset
        [("x", "i1", Catalog.mk []), ("y", "i2", Catalog.mk [])]
        "x" ("f1", Catalog.mk [])) ∧
      alfind (alset [("x", "i1", Catalog.mk []), ("y", "i2", Catalog.mk [])]
          "x" ("f1", Catalog.mk [])) "x" = some ("f1", Catalog.mk []) ∧
      ∀ s, s ≠ "x" →
        alfind (alset [("x", "i1", Catalog.mk []),
            ("y", "i2", Catalog.mk [])] "x" ("f1", Catalog.mk [])) s =
          alfind [("x", "i1", Catalog.mk []), ("y", "i2", Catalog.mk [])] s :=
  C8_insert_replaces_sibling
    (Catalog.mk [("w", "i0", Catalog.mk
      [("x", "i1", Catalog.mk []), ("y", "i2", Catalog.mk [])])])
    "/w/x" ["w"] "x" ["f1"]
    [("x", "i1", Catalog.mk []), ("y", "i2", Catalog.mk [])]
    "i1" (Catalog.mk []) rfl rfl rfl rfl

/-- C8 counterexample: the claim says the previously-registered sibling
remains present. Inserting `/a` into a catalog that already has an activity
`a` with child `b` replaces the binding of `a` entirely: afterwards `a`
carries the fresh identifier and an empty subtree, and the formerly
reachable descendant `b` no longer resolves, though it did before. -/
theorem C8_sibling_lost :
    new_activity (Catalog.mk [("a", "id1", Catalog.mk
        [("b", "id2", Catalog.mk [])])]) "/a" false ["fresh"] =
      .ok (Catalog.mk [("a", "fresh", Catalog.mk [])]) ∧
    activity_id (Catalog.mk [("a", "fresh", Catalog.mk [])]) "b" = none ∧
    activity_id (Catalog.mk [("a", "id1", Catalog.mk
        [("b", "id2", Catalog.mk [])])]) "b" = some "id2" :=
  ⟨rfl, rfl, rfl⟩

/-- C10: buckets stay nonempty, so the unchecked last-element accesses are
in bounds. Starting from a log whose day lists are all nonempty: `done`
leaves every day list nonempty (in particular the continuation fragments it
writes are nonempty singleton lists), `start` preserves the property, and
the `[-1]` accesses cannot raise IndexError: `current_activity` never
returns an index error, and on a nonempty log neither does `done`. -/
theorem C10_nonempty_buckets (t : TL) (a : String) (now : Timestamp)
    (hne : allNonempty t.timeline) :
    allNonempty (doneLog t.timeline now) ∧
    allNonempty (startTL t a now).timeline ∧
    (∀ er, current_activity t.timeline ≠ .error er) ∧
    (t.timeline ≠ [] →
      ∀ tl2, done t.timeline now ≠ .error (.indexError, tl2)) :=
  ⟨done_nonempty now hne, start_nonempty a now hne, ca_ne_indexError hne,
   fun htl tl2 => done_no_indexError now hne htl tl2⟩

/-- C10 witness: a one-day log with a single closed entry and a catalog
holding the activity `A`. -/
theorem C10_nonempty_buckets_witness :
    allNonempty (doneLog [(⟨2024, 1, 10⟩,
        [⟨"ia", "A", ⟨⟨2024, 1, 10⟩, 60⟩, some ⟨⟨2024, 1, 10⟩, 90⟩, false⟩])]
      ⟨⟨2024, 1, 10⟩, 120⟩) ∧
    allNonempty (startTL ⟨[(⟨2024, 1, 10⟩,
        [⟨"ia", "A", ⟨⟨2024, 1, 10⟩, 60⟩, some ⟨⟨2024, 1, 10⟩, 90⟩, false⟩])],
      Catalog.mk [("A", "ia", Catalog.mk [])]⟩ "A"
      ⟨⟨2024, 1, 10⟩, 120⟩).timeline ∧
    (∀ er, current_activity [(⟨2024, 1, 10⟩,
        [⟨"ia", "A", ⟨⟨2024, 1, 10⟩, 60⟩, some ⟨⟨2024, 1, 10⟩, 90⟩, false⟩])] ≠
      .error er) ∧
    (([(⟨2024, 1, 10⟩,
        [⟨"ia", "A", ⟨⟨2024, 1, 10⟩, 60⟩, some ⟨⟨2024, 1, 10⟩, 90⟩, false⟩])] :
        Log) ≠ [] →
      ∀ tl2, done [(⟨2024, 1, 10⟩,
          [⟨"ia", "A", ⟨⟨2024, 1, 10⟩, 60⟩, some ⟨⟨2024, 1, 10⟩, 90⟩, false⟩])]
        ⟨⟨2024, 1, 10⟩, 120⟩ ≠ .error (.indexError, tl2)) :=
  C10_nonempty_buckets ⟨[(⟨2024, 1, 10⟩,
      [⟨"ia", "A", ⟨⟨2024, 1, 10⟩, 60⟩, some ⟨⟨2024, 1, 10⟩, 90⟩, false⟩])],
    Catalog.mk [("A", "ia", Catalog.mk [])]⟩ "A" ⟨⟨2024, 1, 10⟩, 120⟩
    (by unfold allNonempty; decide)
